import Mathlib

/-!
Verification of the todo.txt parser core (`src/parser.ts`).

Strings are modelled as `List Char`.  JavaScript `String.prototype.trim`
and the regex class `\s` agree on the same whitespace set, modelled by
`isWS`.  The regexes of the source are modelled by explicit scanners with
the exact matching semantics of the JavaScript engine (anchored matches,
lazy/greedy quantifiers, `matchAll` left-to-right non-overlapping scan).
-/

namespace TodoTxt

/-- The JavaScript whitespace set: the characters matched by `\s` and
removed by `String.prototype.trim`. -/
def isWS (c : Char) : Bool :=
  c == ' ' || c == '\t' || c == '\n' || c == '\r' || c == '\u000B' || c == '\u000C' ||
  c == '\u00A0' || c == '\u1680' || (decide ('\u2000' ≤ c) && decide (c ≤ '\u200A')) ||
  c == '\u2028' || c == '\u2029' || c == '\u202F' || c == '\u205F' || c == '\u3000' ||
  c == '\uFEFF'

/-- Negation of `isWS`, the regex class `\S`. -/
def nonWS (c : Char) : Bool := !isWS c

/-- JavaScript `s.trim()`: remove leading and trailing whitespace. -/
def jsTrim (s : List Char) : List Char :=
  ((s.dropWhile isWS).reverse.dropWhile isWS).reverse

/-- JavaScript `trimmed.startsWith("x ")` from `parseTodoLine`. -/
def startsWithX : List Char → Bool
  | 'x' :: ' ' :: _ => true
  | _ => false

/-- An uppercase ASCII letter, the regex class `[A-Z]`. -/
def isUpperAZ (c : Char) : Bool := decide ('A' ≤ c) && decide (c ≤ 'Z')

/-- An ASCII digit, the regex class `\d`. -/
def isDigit (c : Char) : Bool := decide ('0' ≤ c) && decide (c ≤ '9')

/-- The anchored regex `^\(([A-Z])\)\s` of `parseTodoLine`: on success
returns the captured letter and the text after the whole match. -/
def matchPriority : List Char → Option (Char × List Char)
  | '(' :: p :: ')' :: w :: rest =>
      if isUpperAZ p && isWS w then some (p, rest) else none
  | _ => none

/-- The `YYYY-MM-DD` shape captured by the date regex: exactly
4 digits, `-`, 2 digits, `-`, 2 digits. -/
def isDateToken : List Char → Bool
  | [a, b, c, d, '-', e, f, '-', g, h] =>
      isDigit a && isDigit b && isDigit c && isDigit d &&
      isDigit e && isDigit f && isDigit g && isDigit h
  | _ => false

/-- The anchored regex `^(\d{4}-\d{2}-\d{2})\s` of `parseTodoLine`: on
success returns the captured date and the text after the whole match. -/
def matchDate : List Char → Option (List Char × List Char)
  | a :: b :: c :: d :: '-' :: e :: f :: '-' :: g :: h :: w :: rest =>
      if isDigit a && isDigit b && isDigit c && isDigit d &&
         isDigit e && isDigit f && isDigit g && isDigit h && isWS w then
        some ([a, b, c, d, '-', e, f, '-', g, h], rest)
      else none
  | _ => none

/-- The date block of `parseTodoLine` (first date, optional second date):
returns `(completionDate, creationDate, remaining)`. -/
def dateStep (completed : Bool) (r : List Char) :
    Option (List Char) × Option (List Char) × List Char :=
  match matchDate r with
  | none => (none, none, r)
  | some (d1, r2) =>
    match matchDate r2 with
    | some (d2, r3) => (some d1, some d2, r3)
    | none => if completed then (some d1, none, r2) else (none, some d1, r2)

theorem lengthDropWhileLe {α : Type} (p : α → Bool) (l : List α) :
    (l.dropWhile p).length ≤ l.length := by
  induction l with
  | nil => simp
  | cons c rest ih =>
    by_cases h : p c
    · rw [List.dropWhile_cons_of_pos h]; exact Nat.le_succ_of_le ih
    · rw [List.dropWhile_cons_of_neg (by simp [h])]

/-- The `matchAll` scan of `/(?:^|\s)\+(\S+)/g` (and of the `@` variant):
`atBound` records whether the current position is the start of the string
or is preceded by a whitespace character; each capture is the greedy
non-whitespace run after the marker, and scanning resumes after the run. -/
def scanMarker (m : Char) : Bool → List Char → List (List Char)
  | _, [] => []
  | atBound, c :: rest =>
      if atBound && c == m && !(rest.takeWhile nonWS).isEmpty then
        rest.takeWhile nonWS :: scanMarker m false (rest.dropWhile nonWS)
      else
        scanMarker m (isWS c) rest
termination_by _ s => s.length
decreasing_by
  · simp only [List.length_cons]
    exact Nat.lt_succ_of_le (lengthDropWhileLe nonWS rest)
  · simp

/-- One anchored attempt of the regex `(\\S+?):(\\S+)`, parameterized by
the whitespace predicate (kept generic so that its defining equations
stay small): the lazy key grows one character at a time; at the first
`:` following a nonempty key, the greedy value is the non-whitespace run
after it (the attempt fails if that run is empty, since no later `:` can
then be reached).  On success returns `(key, value, text after match)`. -/
def tagFromBy (ws : Char → Bool) (key : List Char) :
    List Char → Option (List Char × List Char × List Char)
  | [] => none
  | c :: rest =>
      if ws c then none
      else if c == ':' && !key.isEmpty then
        if (rest.takeWhile (fun d => !ws d)).isEmpty then none
        else some (key, rest.takeWhile (fun d => !ws d),
          rest.drop (rest.takeWhile (fun d => !ws d)).length)
      else tagFromBy ws (key ++ [c]) rest

/-- The anchored tag-regex attempt with the JavaScript `\\s` class. -/
def tagFrom : List Char → List Char → Option (List Char × List Char × List Char) :=
  tagFromBy isWS

theorem tagFromBy_length {ws key s k v after}
    (h : tagFromBy ws key s = some (k, v, after)) : after.length < s.length := by
  induction s generalizing key with
  | nil => simp [tagFromBy] at h
  | cons c rest ih =>
    rw [tagFromBy] at h
    by_cases hws : ws c
    · simp [hws] at h
    · simp only [hws, if_false, Bool.false_eq_true] at h
      by_cases hc : (c == ':' && !key.isEmpty) = true
      · simp only [hc, if_true] at h
        by_cases he : (rest.takeWhile (fun d => !ws d)).isEmpty
        · simp [he] at h
        · simp only [he, if_false, Option.some.injEq, Prod.mk.injEq,
            Bool.false_eq_true] at h
          obtain ⟨-, -, h3⟩ := h
          subst h3
          calc (rest.drop (rest.takeWhile (fun d => !ws d)).length).length ≤ rest.length := by
                simp [List.length_drop]
            _ < (c :: rest).length := by simp
      · simp only [hc, if_false, Bool.false_eq_true] at h
        exact Nat.lt_trans (ih h) (by simp)

theorem tagFrom_nil (key : List Char) : tagFrom key [] = none := by
  show tagFromBy isWS key [] = none
  rw [tagFromBy]

theorem tagFrom_cons (key : List Char) (c : Char) (rest : List Char) :
    tagFrom key (c :: rest) =
      if isWS c then none
      else if c == ':' && !key.isEmpty then
        if (rest.takeWhile nonWS).isEmpty then none
        else some (key, rest.takeWhile nonWS, rest.drop (rest.takeWhile nonWS).length)
      else tagFrom (key ++ [c]) rest := by
  show tagFromBy isWS key (c :: rest) = _
  rw [tagFromBy]
  rfl

/-- The `matchAll` scan of `/(\\S+?):(\\S+)/g` (generic in the whitespace
predicate): at each position attempt an anchored match; on success
record the capture pair and resume after the match, otherwise advance
one character. -/
def scanTagsBy (ws : Char → Bool) : List Char → List (List Char × List Char)
  | [] => []
  | c :: rest =>
      match h : tagFromBy ws [] (c :: rest) with
      | some (k, v, after) => (k, v) :: scanTagsBy ws after
      | none => scanTagsBy ws rest
termination_by s => s.length
decreasing_by
  · exact tagFromBy_length h
  · simp

/-- The tag `matchAll` scan with the JavaScript `\\s` class. -/
def scanTags : List Char → List (List Char × List Char) := scanTagsBy isWS

/-- JavaScript `Record` assignment `tags[key] = value`: replace the value
at an existing key in place, otherwise append the pair. -/
def upsert (m : List (List Char × List Char)) (k v : List Char) :
    List (List Char × List Char) :=
  if m.any (fun kv => kv.1 == k) then
    m.map (fun kv => if kv.1 == k then (k, v) else kv)
  else m ++ [(k, v)]

/-- The tag loop of `parseTodoLine`: skip matches whose full text
(`key:value`) starts with `+` or `@`, insert the rest in order. -/
def buildTags (ms : List (List Char × List Char)) : List (List Char × List Char) :=
  ms.foldl
    (fun acc kv =>
      if !kv.1.isEmpty && !kv.2.isEmpty &&
         !((kv.1 ++ ':' :: kv.2).head? == some '+') &&
         !((kv.1 ++ ':' :: kv.2).head? == some '@') then
        upsert acc kv.1 kv.2
      else acc)
    []

/-- The `Todo` interface of `src/types.ts`, with strings as `List Char`. -/
structure Todo where
  completed : Bool
  priority : Option (List Char)
  completionDate : Option (List Char)
  creationDate : Option (List Char)
  description : List Char
  projects : List (List Char)
  contexts : List (List Char)
  tags : List (List Char × List Char)
  raw : List Char
deriving Repr, DecidableEq

/-- `parseTodoLine` of `src/parser.ts`. -/
def parseTodoLine (line : List Char) : Todo :=
  let trimmed := jsTrim line
  let completed := startsWithX trimmed
  let remaining0 := if completed then jsTrim (trimmed.drop 2) else trimmed
  let pr := matchPriority remaining0
  let remaining1 := match pr with | some x => x.2 | none => remaining0
  let dd := dateStep completed remaining1
  { completed := completed
    priority := pr.map (fun x => [x.1])
    completionDate := dd.1
    creationDate := dd.2.1
    description := dd.2.2
    projects := scanMarker '+' true trimmed
    contexts := scanMarker '@' true trimmed
    tags := buildTags (scanTags trimmed)
    raw := line }

/-- JavaScript truthiness of an optional string field. -/
def optTruthy : Option (List Char) → Bool
  | some s => !s.isEmpty
  | none => false

/-- `serializeTodo` of `src/parser.ts`; the `if (todo.priority)`-style
guards are JavaScript truthiness, so an empty string behaves as absent. -/
def serializeTodo (t : Todo) : List Char :=
  (if t.completed then ['x', ' '] else [])
  ++ (match t.priority with
      | some p => if p.isEmpty then [] else '(' :: p ++ [')', ' ']
      | none => [])
  ++ (if t.completed then
        (match t.completionDate with
         | some d => if d.isEmpty then [] else d ++ [' ']
         | none => [])
      else [])
  ++ (match t.creationDate with
      | some d => if d.isEmpty then [] else d ++ [' ']
      | none => [])
  ++ t.description

/-- JavaScript `text.split("\n")`: every segment between line feeds,
empty segments included. -/
def splitNL : List Char → List (List Char)
  | [] => [[]]
  | '\n' :: rest => [] :: splitNL rest
  | c :: rest =>
      match splitNL rest with
      | [] => [[c]]
      | seg :: segs => (c :: seg) :: segs

/-- JavaScript `lines.join("\n")`. -/
def joinNL : List (List Char) → List Char
  | [] => []
  | l :: ls =>
      match ls with
      | [] => l
      | _ :: _ => l ++ '\n' :: joinNL ls

/-- `parseTodoTxt` of `src/parser.ts`: split on line feed, skip lines
that are empty after trimming, parse the rest in order. -/
def parseTodoTxt (text : List Char) : List Todo :=
  (splitNL text).filterMap
    (fun line => if (jsTrim line).isEmpty then none else some (parseTodoLine line))

/-- `updateTodoInList` of `src/parser.ts`; the index is a JavaScript
number, modelled as an integer. -/
def updateTodoInList (todos : List Todo) (index : Int) (updatedTodo : Todo) :
    List Char :=
  if todos.isEmpty then []
  else if index < 0 ∨ (todos.length : Int) ≤ index then
    joinNL (todos.map serializeTodo)
  else
    joinNL ((todos.set index.toNat updatedTodo).map serializeTodo)

/-- `appendTaskToFile` of `src/parser.ts`. -/
def appendTaskToFile (content : List Char) (newTask : Todo) : List Char :=
  if content.isEmpty then serializeTodo newTask
  else content ++ '\n' :: serializeTodo newTask

/-- `updateTaskAtLine` of `src/parser.ts`. -/
def updateTaskAtLine (content : List Char) (lineIndex : Int) (updatedTodo : Todo) :
    List Char :=
  if content.isEmpty then []
  else
    let todos := parseTodoTxt content
    if lineIndex < 0 ∨ (todos.length : Int) ≤ lineIndex then content
    else updateTodoInList todos lineIndex updatedTodo

/-- `deleteTaskAtLine` of `src/parser.ts`; the JavaScript
`filter((_, i) => i !== lineIndex)` removes the in-range index. -/
def deleteTaskAtLine (content : List Char) (lineIndex : Int) : List Char :=
  if content.isEmpty then []
  else
    let todos := parseTodoTxt content
    if lineIndex < 0 ∨ (todos.length : Int) ≤ lineIndex then content
    else
      let updated := todos.eraseIdx lineIndex.toNat
      if updated.isEmpty then [] else joinNL (updated.map serializeTodo)

/-! ### Character-class facts -/

theorem isWS_eq_false_of_bounds {c : Char} (h1 : '!' ≤ c) (h2 : c ≤ '~') :
    isWS c = false := by
  by_contra hws
  rw [Bool.not_eq_false] at hws
  simp only [isWS, Bool.or_eq_true, beq_iff_eq, Bool.and_eq_true,
    decide_eq_true_eq] at hws
  rcases hws with
    (((((((((((((h | h) | h) | h) | h) | h) | h) | h) | ⟨ha, hb⟩) | h) | h) | h) | h) | h) | h
  all_goals first
    | (subst h; exact absurd h1 (by decide))
    | (subst h; exact absurd h2 (by decide))
    | exact absurd (le_trans ha h2) (by decide)

theorem nonWS_of_digit {c : Char} (h : isDigit c = true) : nonWS c = true := by
  simp only [isDigit, Bool.and_eq_true, decide_eq_true_eq] at h
  have := isWS_eq_false_of_bounds (le_trans (by decide : ('!' : Char) ≤ '0') h.1)
    (le_trans h.2 (by decide : ('9' : Char) ≤ '~'))
  simp [nonWS, this]

theorem nonWS_of_upper {c : Char} (h : isUpperAZ c = true) : nonWS c = true := by
  simp only [isUpperAZ, Bool.and_eq_true, decide_eq_true_eq] at h
  have := isWS_eq_false_of_bounds (le_trans (by decide : ('!' : Char) ≤ 'A') h.1)
    (le_trans h.2 (by decide : ('Z' : Char) ≤ '~'))
  simp [nonWS, this]

theorem isWS_of_not_nonWS {c : Char} (h : ¬ nonWS c = true) : isWS c = true := by
  simp [nonWS] at h
  exact h

/-! ### head / last helpers -/

theorem headDropWhile {p : Char → Bool} {l : List Char} {c : Char}
    (h : (l.dropWhile p).head? = some c) : p c = false := by
  induction l with
  | nil => simp at h
  | cons d rest ih =>
    by_cases hd : p d
    · rw [List.dropWhile_cons_of_pos hd] at h; exact ih h
    · rw [List.dropWhile_cons_of_neg hd] at h
      simp at h
      subst h
      simpa using hd

theorem getLastAppend {l m : List Char} (h : m ≠ []) :
    (l ++ m).getLast? = m.getLast? :=
  List.getLast?_append_of_ne_nil _ h

theorem getLastDropWhile {p : Char → Bool} {l : List Char}
    (h : l.dropWhile p ≠ []) : (l.dropWhile p).getLast? = l.getLast? := by
  conv_rhs => rw [← List.takeWhile_append_dropWhile p l]
  exact (getLastAppend h).symm

/-- No leading whitespace. -/
def noLeadWS (s : List Char) : Prop := ∀ c, s.head? = some c → isWS c = false

/-- No trailing whitespace. -/
def noTrailWS (s : List Char) : Prop := ∀ c, s.getLast? = some c → isWS c = false

theorem noTrailWS_of_append {l m : List Char} (hm : m ≠ [])
    (h : noTrailWS (l ++ m)) : noTrailWS m := by
  intro c hc
  exact h c (by rw [getLastAppend hm]; exact hc)

theorem noLeadWS_dropWhile (s : List Char) : noLeadWS (s.dropWhile isWS) :=
  fun _ hc => headDropWhile hc

/-! ### jsTrim structure -/

theorem jsTrim_noLead (s : List Char) : noLeadWS (jsTrim s) := by
  intro c hc
  unfold jsTrim at hc
  rw [List.head?_reverse] at hc
  set A := s.dropWhile isWS with hA
  have hne : A.reverse.dropWhile isWS ≠ [] := by
    intro he
    rw [he] at hc
    simp at hc
  rw [getLastDropWhile hne, ← List.head?_reverse, List.reverse_reverse] at hc
  exact headDropWhile hc

theorem jsTrim_noTrail (s : List Char) : noTrailWS (jsTrim s) := by
  intro c hc
  unfold jsTrim at hc
  rw [← List.head?_reverse, List.reverse_reverse] at hc
  exact headDropWhile hc

theorem dropWhile_eq_self_of_noLead {s : List Char} (h : noLeadWS s) :
    s.dropWhile isWS = s := by
  cases s with
  | nil => rfl
  | cons c rest =>
    have := h c rfl
    exact List.dropWhile_cons_of_neg (by simp [this])

theorem jsTrim_of_noTrail {s : List Char} (h : noTrailWS s) :
    jsTrim s = s.dropWhile isWS := by
  have hnt : noTrailWS (s.dropWhile isWS) := by
    intro c hc
    have hne : s.dropWhile isWS ≠ [] := by
      intro he; rw [he] at hc; simp at hc
    rw [getLastDropWhile hne] at hc
    exact h c hc
  unfold jsTrim
  have h2 : (s.dropWhile isWS).reverse.dropWhile isWS = (s.dropWhile isWS).reverse := by
    apply dropWhile_eq_self_of_noLead
    intro c hc
    rw [List.head?_reverse] at hc
    exact hnt c hc
  rw [h2, List.reverse_reverse]

theorem jsTrim_eq_self {s : List Char} (h1 : noLeadWS s) (h2 : noTrailWS s) :
    jsTrim s = s := by
  rw [jsTrim_of_noTrail h2]
  exact dropWhile_eq_self_of_noLead h1

theorem jsTrim_idem (s : List Char) : jsTrim (jsTrim s) = jsTrim s :=
  jsTrim_eq_self (jsTrim_noLead s) (jsTrim_noTrail s)

theorem jsTrim_nil : jsTrim [] = [] := rfl

/-! ### Matcher inversions -/

theorem startsWithX_iff {s : List Char} :
    startsWithX s = true ↔ ∃ rest, s = 'x' :: ' ' :: rest := by
  constructor
  · intro h
    unfold startsWithX at h
    split at h
    · rename_i rest
      exact ⟨rest, rfl⟩
    · exact absurd h (by simp)
  · rintro ⟨rest, rfl⟩
    rfl

theorem matchPriority_some {s : List Char} {p : Char} {r : List Char}
    (h : matchPriority s = some (p, r)) :
    ∃ w, s = '(' :: p :: ')' :: w :: r ∧ isUpperAZ p = true ∧ isWS w = true := by
  unfold matchPriority at h
  split at h
  · rename_i p' w rest
    split at h
    · rename_i hcond
      simp only [Option.some.injEq, Prod.mk.injEq] at h
      obtain ⟨rfl, rfl⟩ := h
      rw [Bool.and_eq_true] at hcond
      exact ⟨w, rfl, hcond.1, hcond.2⟩
    · exact absurd h (by simp)
  · exact absurd h (by simp)

theorem matchPriority_build {p w : Char} {r : List Char}
    (hp : isUpperAZ p = true) (hw : isWS w = true) :
    matchPriority ('(' :: p :: ')' :: w :: r) = some (p, r) := by
  unfold matchPriority
  simp [hp, hw]

theorem matchDate_some {s : List Char} {d r : List Char}
    (h : matchDate s = some (d, r)) :
    ∃ w, s = d ++ w :: r ∧ isDateToken d = true ∧ isWS w = true := by
  unfold matchDate at h
  split at h
  · rename_i a b c d4 e f g h8 w rest
    split at h
    · rename_i hcond
      simp only [Option.some.injEq, Prod.mk.injEq] at h
      obtain ⟨rfl, rfl⟩ := h
      simp only [Bool.and_eq_true] at hcond
      refine ⟨w, rfl, ?_, hcond.2⟩
      simp only [isDateToken, Bool.and_eq_true]
      exact ⟨⟨⟨⟨⟨⟨⟨hcond.1.1.1.1.1.1.1.1, hcond.1.1.1.1.1.1.1.2⟩, hcond.1.1.1.1.1.1.2⟩,
        hcond.1.1.1.1.1.2⟩, hcond.1.1.1.1.2⟩, hcond.1.1.1.2⟩, hcond.1.1.2⟩, hcond.1.2⟩
    · exact absurd h (by simp)
  · exact absurd h (by simp)

theorem isDateToken_elim {d : List Char} (h : isDateToken d = true) :
    d.length = 10 ∧ d ≠ [] ∧ d.all nonWS = true ∧
    (∀ c, d.head? = some c → isDigit c = true) := by
  unfold isDateToken at h
  split at h
  · rename_i a b c d4 e f g h8
    simp only [Bool.and_eq_true] at h
    obtain ⟨⟨⟨⟨⟨⟨⟨h1, h2⟩, h3⟩, h4⟩, h5⟩, h6⟩, h7⟩, h8'⟩ := h
    refine ⟨rfl, by simp, ?_, ?_⟩
    · simp only [List.all_cons, List.all_nil, Bool.and_eq_true]
      refine ⟨nonWS_of_digit h1, nonWS_of_digit h2, nonWS_of_digit h3, nonWS_of_digit h4,
        by decide, nonWS_of_digit h5, nonWS_of_digit h6, by decide,
        nonWS_of_digit h7, nonWS_of_digit h8', trivial⟩
    · intro c hc
      simp at hc
      subst hc
      exact h1
  · exact absurd h (by simp)

theorem matchDate_build {d : List Char} {w : Char} {r : List Char}
    (hd : isDateToken d = true) (hw : isWS w = true) :
    matchDate (d ++ w :: r) = some (d, r) := by
  unfold isDateToken at hd
  split at hd
  · rename_i a b c d4 e f g h8
    simp only [Bool.and_eq_true] at hd
    obtain ⟨⟨⟨⟨⟨⟨⟨h1, h2⟩, h3⟩, h4⟩, h5⟩, h6⟩, h7⟩, h8'⟩ := hd
    unfold matchDate
    simp only [List.cons_append, List.nil_append]
    rw [if_pos]
    simp only [Bool.and_eq_true]
    exact ⟨⟨⟨⟨⟨⟨⟨⟨h1, h2⟩, h3⟩, h4⟩, h5⟩, h6⟩, h7⟩, h8'⟩, hw⟩
  · exact absurd hd (by simp)

theorem matchPriority_none_of_digit {s : List Char} {c : Char}
    (hc : s.head? = some c) (hd : isDigit c = true) : matchPriority s = none := by
  unfold matchPriority
  split
  · rename_i p w rest
    simp only [List.head?_cons, Option.some.injEq] at hc
    subst hc
    exact absurd hd (by decide)
  · rfl

theorem startsWithX_false_of_digit {s : List Char} {c : Char}
    (hc : s.head? = some c) (hd : isDigit c = true) : startsWithX s = false := by
  unfold startsWithX
  split
  · rename_i rest
    simp only [List.head?_cons, Option.some.injEq] at hc
    subst hc
    exact absurd hd (by decide)
  · rfl

/-! ### Tokens: maximal non-whitespace runs.  These definitions are a
derived characterization of the regex scans, used to state and prove the
annotation-scan theorems; the authoritative models remain `scanMarker`
and `scanTags`. -/

/-- Generic splitter into maximal runs, parameterized by the whitespace
predicate (kept generic so that its defining equations stay small). -/
def tokensBy (ws : Char → Bool) : List Char → List (List Char)
  | [] => []
  | c :: rest =>
      if ws c then tokensBy ws rest
      else (c :: rest.takeWhile (fun d => !ws d)) :: tokensBy ws (rest.dropWhile (fun d => !ws d))
termination_by s => s.length
decreasing_by
  · simp
  · simp only [List.length_cons]
    exact Nat.lt_succ_of_le (lengthDropWhileLe _ rest)

/-- The maximal non-whitespace runs of a string, in order. -/
def tokens : List Char → List (List Char) := tokensBy isWS

theorem tokens_nil : tokens [] = [] := by
  show tokensBy isWS [] = []
  rw [tokensBy]

theorem tokens_cons (c : Char) (s : List Char) :
    tokens (c :: s) = if isWS c then tokens s
      else (c :: s.takeWhile nonWS) :: tokens (s.dropWhile nonWS) := by
  show tokensBy isWS (c :: s) = _
  rw [tokensBy]
  rfl

/-- The project/context capture a single token yields: the token minus
its leading marker, provided the marker leads and something follows. -/
def tokenCapture (m : Char) : List Char → Option (List Char)
  | c :: d :: r => if c == m then some (d :: r) else none
  | _ => none

/-- All captures of the marker scan, token by token. -/
def capturesOf (m : Char) (toks : List (List Char)) : List (List Char) :=
  toks.filterMap (tokenCapture m)

/-- Head is whitespace (or the string is empty). -/
def wsHead (s : List Char) : Prop := ∀ c, s.head? = some c → isWS c = true

theorem wsHead_nil : wsHead [] := by intro c hc; simp at hc

theorem wsHead_dropWhile_nonWS (l : List Char) : wsHead (l.dropWhile nonWS) := by
  intro c hc
  have := headDropWhile hc
  exact isWS_of_not_nonWS (by simp [this])

theorem takeWhile_run {A s : List Char} (hA : A.all nonWS = true) (hs : wsHead s) :
    (A ++ s).takeWhile nonWS = A ∧ (A ++ s).dropWhile nonWS = s := by
  induction A with
  | nil =>
    simp only [List.nil_append]
    cases s with
    | nil => simp
    | cons w rest =>
      have hw := hs w rfl
      constructor
      · exact List.takeWhile_cons_of_neg (by simp [nonWS, hw])
      · exact List.dropWhile_cons_of_neg (by simp [nonWS, hw])
  | cons c A2 ih =>
    simp only [List.all_cons, Bool.and_eq_true] at hA
    obtain ⟨hc, hA2⟩ := hA
    have := ih hA2
    simp only [List.cons_append]
    rw [List.takeWhile_cons_of_pos hc, List.dropWhile_cons_of_pos hc]
    exact ⟨by rw [this.1], this.2⟩

theorem tokens_ws_cons {c : Char} (s : List Char) (h : isWS c = true) :
    tokens (c :: s) = tokens s := by
  rw [tokens_cons, if_pos h]

theorem tokens_nonws_cons {c : Char} (s : List Char) (h : isWS c = false) :
    tokens (c :: s) = (c :: s.takeWhile nonWS) :: tokens (s.dropWhile nonWS) := by
  rw [tokens_cons, if_neg (by simp [h])]

theorem tokens_allWS {W : List Char} (s : List Char) (h : W.all isWS = true) :
    tokens (W ++ s) = tokens s := by
  induction W with
  | nil => rfl
  | cons c W2 ih =>
    simp only [List.all_cons, Bool.and_eq_true] at h
    rw [List.cons_append, tokens_ws_cons _ h.1]
    exact ih h.2

theorem tokens_run {A s : List Char} (hA : A.all nonWS = true) (hne : A ≠ [])
    (hs : wsHead s) : tokens (A ++ s) = A :: tokens s := by
  cases A with
  | nil => exact absurd rfl hne
  | cons c rest =>
    simp only [List.all_cons, Bool.and_eq_true] at hA
    rw [List.cons_append, tokens_nonws_cons _ (by simpa [nonWS] using hA.1)]
    have h2 := takeWhile_run hA.2 hs
    rw [h2.1, h2.2]

theorem takeWhile_stop {X : List Char} {w : Char} (Y : List Char) (hw : isWS w = true) :
    (X ++ w :: Y).takeWhile nonWS = X.takeWhile nonWS ∧
    (X ++ w :: Y).dropWhile nonWS = X.dropWhile nonWS ++ w :: Y := by
  induction X with
  | nil =>
    simp only [List.nil_append]
    constructor
    · rw [List.takeWhile_cons_of_neg (by simp [nonWS, hw]), List.takeWhile_nil]
    · rw [List.dropWhile_cons_of_neg (by simp [nonWS, hw]), List.dropWhile_nil,
        List.nil_append]
  | cons c X2 ih =>
    by_cases hc : nonWS c
    · simp only [List.cons_append]
      rw [List.takeWhile_cons_of_pos hc, List.takeWhile_cons_of_pos hc,
        List.dropWhile_cons_of_pos hc, List.dropWhile_cons_of_pos hc]
      exact ⟨by rw [ih.1], by rw [ih.2]⟩
    · simp only [List.cons_append]
      rw [List.takeWhile_cons_of_neg hc, List.takeWhile_cons_of_neg hc,
        List.dropWhile_cons_of_neg hc, List.dropWhile_cons_of_neg hc]
      simp

theorem tokens_sep {w : Char} (hw : isWS w = true) :
    ∀ (A B : List Char), tokens (A ++ w :: B) = tokens A ++ tokens B := by
  suffices H : ∀ n A B, A.length ≤ n → tokens (A ++ w :: B) = tokens A ++ tokens B by
    intro A B
    exact H A.length A B le_rfl
  intro n
  induction n with
  | zero =>
    intro A B hA
    have : A = [] := List.length_eq_zero.mp (Nat.le_zero.mp hA)
    subst this
    simp only [List.nil_append]
    rw [tokens_ws_cons _ hw, tokens_nil, List.nil_append]
  | succ n ih =>
    intro A B hA
    cases A with
    | nil =>
      simp only [List.nil_append]
      rw [tokens_ws_cons _ hw, tokens_nil, List.nil_append]
    | cons c A2 =>
      by_cases hc : isWS c
      · rw [List.cons_append, tokens_ws_cons _ hc, tokens_ws_cons _ hc]
        exact ih A2 B (by simpa using Nat.le_of_succ_le_succ (by simpa using hA))
      · rw [List.cons_append, tokens_nonws_cons _ (by simpa using hc),
          tokens_nonws_cons _ (by simpa using hc)]
        have hst := takeWhile_stop (X := A2) B hw
        rw [hst.1, hst.2]
        have hlen : (A2.dropWhile nonWS).length ≤ n := by
          have h1 := lengthDropWhileLe nonWS A2
          have h2 : A2.length ≤ n := Nat.le_of_succ_le_succ (by simpa using hA)
          omega
        rw [ih _ B hlen]
        simp

theorem scanMarker_nil (m : Char) (b : Bool) : scanMarker m b [] = [] := by
  rw [scanMarker]

theorem scanMarker_false_run {m : Char} {A : List Char} (s : List Char)
    (hA : A.all nonWS = true) :
    scanMarker m false (A ++ s) = scanMarker m false s := by
  induction A with
  | nil => rfl
  | cons c A2 ih =>
    simp only [List.all_cons, Bool.and_eq_true] at hA
    have hc : isWS c = false := by simpa [nonWS] using hA.1
    rw [List.cons_append, scanMarker, if_neg (by simp), hc]
    exact ih hA.2

theorem scanMarker_ws_cons {m w : Char} (b : Bool) (s : List Char)
    (hm : isWS m = false) (hw : isWS w = true) :
    scanMarker m b (w :: s) = scanMarker m true s := by
  have hne : (w == m) = false := by
    apply beq_eq_false_iff_ne.mpr
    intro he
    rw [he] at hw
    rw [hw] at hm
    exact absurd hm (by simp)
  rw [scanMarker, if_neg (by simp [hne]), hw]

theorem scanMarker_true_run {m : Char} {A : List Char} (s : List Char)
    (hA : A.all nonWS = true) (hne : A ≠ []) (hs : wsHead s) :
    scanMarker m true (A ++ s) =
      (tokenCapture m A).toList ++ scanMarker m false s := by
  cases A with
  | nil => exact absurd rfl hne
  | cons c rest =>
    simp only [List.all_cons, Bool.and_eq_true] at hA
    have hc : isWS c = false := by simpa [nonWS] using hA.1
    have htw := takeWhile_run hA.2 hs
    by_cases hcm : (c == m) = true
    · cases rest with
      | nil =>
        simp only [List.nil_append] at htw
        rw [List.cons_append, List.nil_append, scanMarker,
          if_neg (by rw [htw.1]; simp), hc]
        have hcap : tokenCapture m [c] = none := rfl
        rw [hcap]
        rfl
      | cons d r =>
        rw [List.cons_append, scanMarker,
          if_pos (by rw [htw.1]; simp [hcm]), htw.1, htw.2]
        have hcap : tokenCapture m (c :: d :: r) = some (d :: r) := by
          show (if (c == m) = true then some (d :: r) else none) = some (d :: r)
          rw [if_pos hcm]
        rw [hcap]
        rfl
    · have hcm2 : (c == m) = false := by simpa using hcm
      rw [List.cons_append, scanMarker, if_neg (by simp [hcm2]), hc,
        scanMarker_false_run s hA.2]
      have hcap : tokenCapture m (c :: rest) = none := by
        cases rest with
        | nil => rfl
        | cons d r =>
          show (if (c == m) = true then some (d :: r) else none) = none
          rw [if_neg (by simp [hcm2])]
      rw [hcap]
      rfl

theorem scanMarker_false_eq_true {m : Char} {s : List Char}
    (hm : isWS m = false) (hs : wsHead s) :
    scanMarker m false s = scanMarker m true s := by
  cases s with
  | nil => rw [scanMarker_nil, scanMarker_nil]
  | cons w rest =>
    rw [scanMarker_ws_cons _ _ hm (hs w rfl), scanMarker_ws_cons _ _ hm (hs w rfl)]

theorem scanMarker_eq_capturesOf {m : Char} (hm : isWS m = false) :
    ∀ s, scanMarker m true s = capturesOf m (tokens s) := by
  suffices H : ∀ n s, s.length ≤ n → scanMarker m true s = capturesOf m (tokens s) by
    intro s
    exact H s.length s le_rfl
  intro n
  induction n with
  | zero =>
    intro s hs
    have : s = [] := List.length_eq_zero.mp (Nat.le_zero.mp hs)
    subst this
    rw [scanMarker_nil, tokens_nil]
    rfl
  | succ n ih =>
    intro s hs
    cases s with
    | nil =>
      rw [scanMarker_nil, tokens_nil]
      rfl
    | cons c rest =>
      by_cases hc : isWS c
      · rw [scanMarker_ws_cons _ _ hm hc, tokens_ws_cons _ hc]
        exact ih rest (Nat.le_of_succ_le_succ (by simpa using hs))
      · have hdecomp : c :: rest = (c :: rest.takeWhile nonWS) ++ rest.dropWhile nonWS := by
          rw [List.cons_append, List.takeWhile_append_dropWhile]
        have hA : (c :: rest.takeWhile nonWS).all nonWS = true := by
          simp only [List.all_cons, Bool.and_eq_true]
          exact ⟨by simp [nonWS, hc], List.all_takeWhile⟩
        have hwsh := wsHead_dropWhile_nonWS rest
        rw [hdecomp, scanMarker_true_run _ hA (by simp) hwsh,
          scanMarker_false_eq_true hm hwsh,
          ih (rest.dropWhile nonWS)
            (le_trans (lengthDropWhileLe nonWS rest) (Nat.le_of_succ_le_succ (by simpa using hs))),
          tokens_run hA (by simp) hwsh]
        simp only [capturesOf, List.filterMap_cons]
        cases hcap : tokenCapture m (c :: rest.takeWhile nonWS) with
        | none => simp
        | some x => simp

/-- The tag split a single token yields: the key is everything before
the first `:` that follows a nonempty prefix and is not token-final, the
value everything after it. -/
def tokenTagAux (acc : List Char) : List Char → Option (List Char × List Char)
  | [] => none
  | c :: rest =>
      if c == ':' && !acc.isEmpty && !rest.isEmpty then some (acc, rest)
      else tokenTagAux (acc ++ [c]) rest

/-- The tag match of a whole token. -/
def tokenTag (t : List Char) : Option (List Char × List Char) := tokenTagAux [] t

/-- Whether a run contains a `:` that is neither first-position-failing
nor final (the condition for the anchored tag regex to succeed). -/
def hasInnerColon : List Char → Bool
  | [] => false
  | c :: rest => (c == ':' && !rest.isEmpty) || hasInnerColon rest

theorem option_eq_none_of_isSome_false {α : Type} {o : Option α}
    (h : o.isSome = false) : o = none := by
  cases o with
  | none => rfl
  | some x => simp at h

theorem tagFrom_run {A s : List Char} (hA : A.all nonWS = true) (hs : wsHead s) :
    ∀ key, tagFrom key (A ++ s) =
      (tokenTagAux key A).map (fun kv => (kv.1, kv.2, s)) := by
  induction A with
  | nil =>
    intro key
    cases s with
    | nil => rw [List.nil_append, tagFrom_nil]; rfl
    | cons w rest =>
      simp only [List.nil_append]
      rw [tagFrom_cons, if_pos (hs w rfl)]
      rfl
  | cons c A2 ih =>
    intro key
    simp only [List.all_cons, Bool.and_eq_true] at hA
    have hc : isWS c = false := by simpa [nonWS] using hA.1
    rw [List.cons_append, tagFrom_cons, if_neg (by simp [hc])]
    have htw := takeWhile_run hA.2 hs
    by_cases hck : (c == ':' && !key.isEmpty) = true
    · rw [if_pos hck]
      cases A2 with
      | nil =>
        rw [if_pos (by simp only [List.nil_append] at htw ⊢; rw [htw.1]; rfl)]
        rw [tokenTagAux, if_neg (by simp), tokenTagAux]
        rfl
      | cons d r =>
        rw [if_neg (by rw [htw.1]; simp), htw.1, List.drop_left]
        rw [tokenTagAux, if_pos (by simp [hck])]
        rfl
    · have hckf : (c == ':' && !key.isEmpty) = false := by simpa using hck
      rw [if_neg (by simp [hckf])]
      rw [ih hA.2 (key ++ [c])]
      rw [tokenTagAux, if_neg (by simp [hckf])]

theorem tokenTagAux_isSome {r : List Char} :
    ∀ {acc : List Char}, acc ≠ [] → (tokenTagAux acc r).isSome = hasInnerColon r := by
  induction r with
  | nil => intro acc h; rfl
  | cons c rest ih =>
    intro acc h
    have hne : (!acc.isEmpty) = true := by
      simp [List.isEmpty_iff, h]
    rw [tokenTagAux, hasInnerColon]
    by_cases hc : (c == ':' && !rest.isEmpty) = true
    · rw [if_pos (by simp only [Bool.and_eq_true] at hc ⊢; exact ⟨⟨hc.1, hne⟩, hc.2⟩)]
      simp [hc]
    · rw [if_neg (by simp only [Bool.and_eq_true] at hc ⊢; intro hcon; exact hc ⟨hcon.1.1, hcon.2⟩)]
      rw [ih (by simp)]
      simp only [Bool.eq_false_iff] at hc
      simp [Bool.eq_false_iff.mpr hc]

theorem tokenTag_step (c : Char) (rest : List Char) :
    tokenTag (c :: rest) = tokenTagAux [c] rest := by
  unfold tokenTag
  rw [tokenTagAux, if_neg (by simp)]
  rfl

theorem tokenTag_none_tail {c : Char} {rest : List Char}
    (h : tokenTag (c :: rest) = none) : tokenTag rest = none := by
  rw [tokenTag_step] at h
  have h1 : hasInnerColon rest = false := by
    rw [← tokenTagAux_isSome (by simp : ([c] : List Char) ≠ [])]
    rw [h]
    rfl
  cases rest with
  | nil => rfl
  | cons d rest2 =>
    rw [tokenTag_step]
    apply option_eq_none_of_isSome_false
    rw [tokenTagAux_isSome (by simp : ([d] : List Char) ≠ [])]
    rw [hasInnerColon] at h1
    simp only [Bool.or_eq_false_iff] at h1
    exact h1.2

theorem scanTags_nil : scanTags [] = [] := by
  show scanTagsBy isWS [] = []
  rw [scanTagsBy]

theorem scanTags_cons_some {c : Char} {rest k v after : List Char}
    (h : tagFrom [] (c :: rest) = some (k, v, after)) :
    scanTags (c :: rest) = (k, v) :: scanTags after := by
  have h2 : tagFromBy isWS [] (c :: rest) = some (k, v, after) := h
  show scanTagsBy isWS (c :: rest) = (k, v) :: scanTagsBy isWS after
  rw [scanTagsBy]
  split
  · rename_i k2 v2 after2 heq
    rw [h2] at heq
    simp only [Option.some.injEq, Prod.mk.injEq] at heq
    obtain ⟨h1, h2, h3⟩ := heq
    rw [h1, h2, h3]
  · rename_i heq
    rw [h2] at heq
    exact absurd heq (by simp)

theorem scanTags_cons_none {c : Char} {rest : List Char}
    (h : tagFrom [] (c :: rest) = none) :
    scanTags (c :: rest) = scanTags rest := by
  have h2 : tagFromBy isWS [] (c :: rest) = none := h
  show scanTagsBy isWS (c :: rest) = scanTagsBy isWS rest
  rw [scanTagsBy]
  split
  · rename_i k2 v2 after2 heq
    rw [h2] at heq
    exact absurd heq (by simp)
  · rfl

theorem scanTags_none_run {A : List Char} (s : List Char) (hA : A.all nonWS = true)
    (hs : wsHead s) (hnone : tokenTag A = none) :
    scanTags (A ++ s) = scanTags s := by
  induction A with
  | nil => rfl
  | cons c A2 ih =>
    have hfrom : tagFrom [] ((c :: A2) ++ s) = none := by
      rw [tagFrom_run hA hs []]
      unfold tokenTag at hnone
      rw [hnone]
      rfl
    rw [List.cons_append] at hfrom ⊢
    rw [scanTags_cons_none hfrom]
    simp only [List.all_cons, Bool.and_eq_true] at hA
    exact ih hA.2 (tokenTag_none_tail hnone)

theorem scanTags_run {A : List Char} (s : List Char) (hA : A.all nonWS = true)
    (hne : A ≠ []) (hs : wsHead s) :
    scanTags (A ++ s) =
      (match tokenTag A with | some kv => [kv] | none => []) ++ scanTags s := by
  cases h : tokenTag A with
  | none =>
    rw [scanTags_none_run s hA hs h]
    rfl
  | some kv =>
    cases A with
    | nil => exact absurd rfl hne
    | cons c A2 =>
      have hfrom : tagFrom [] ((c :: A2) ++ s) = some (kv.1, kv.2, s) := by
        rw [tagFrom_run hA hs []]
        unfold tokenTag at h
        rw [h]
        rfl
      rw [List.cons_append] at hfrom ⊢
      rw [scanTags_cons_some hfrom]
      rfl

theorem scanTags_eq_tokens : ∀ s, scanTags s = (tokens s).filterMap tokenTag := by
  suffices H : ∀ n s, s.length ≤ n → scanTags s = (tokens s).filterMap tokenTag by
    intro s
    exact H s.length s le_rfl
  intro n
  induction n with
  | zero =>
    intro s hs
    have : s = [] := List.length_eq_zero.mp (Nat.le_zero.mp hs)
    subst this
    rw [scanTags_nil, tokens_nil]
    rfl
  | succ n ih =>
    intro s hs
    cases s with
    | nil =>
      rw [scanTags_nil, tokens_nil]
      rfl
    | cons c rest =>
      by_cases hc : isWS c
      · have hfrom : tagFrom [] (c :: rest) = none := by
          rw [tagFrom_cons, if_pos hc]
        rw [scanTags_cons_none hfrom, tokens_ws_cons _ hc]
        exact ih rest (Nat.le_of_succ_le_succ (by simpa using hs))
      · have hdecomp : c :: rest = (c :: rest.takeWhile nonWS) ++ rest.dropWhile nonWS := by
          rw [List.cons_append, List.takeWhile_append_dropWhile]
        have hA : (c :: rest.takeWhile nonWS).all nonWS = true := by
          simp only [List.all_cons, Bool.and_eq_true]
          exact ⟨by simp [nonWS, hc], List.all_takeWhile⟩
        have hwsh := wsHead_dropWhile_nonWS rest
        rw [hdecomp, scanTags_run _ hA (by simp) hwsh,
          ih (rest.dropWhile nonWS)
            (le_trans (lengthDropWhileLe nonWS rest) (Nat.le_of_succ_le_succ (by simpa using hs))),
          tokens_run hA (by simp) hwsh]
        rw [List.filterMap_cons]
        cases hcap : tokenTag (c :: rest.takeWhile nonWS) with
        | none => simp
        | some x => simp

/-! ### Structure of `parseTodoLine` -/

/-- The `remaining` variable of `parseTodoLine` after the completion
step (note the second `trim` applied after slicing off `x `). -/
def remAfterX (line : List Char) : List Char :=
  if startsWithX (jsTrim line) then jsTrim ((jsTrim line).drop 2) else jsTrim line

/-- The `remaining` variable of `parseTodoLine` after the priority step. -/
def remAfterPriority (line : List Char) : List Char :=
  match matchPriority (remAfterX line) with
  | some x => x.2
  | none => remAfterX line

theorem parse_completed (line : List Char) :
    (parseTodoLine line).completed = startsWithX (jsTrim line) := rfl

theorem parse_raw (line : List Char) : (parseTodoLine line).raw = line := rfl

theorem parse_projects (line : List Char) :
    (parseTodoLine line).projects = scanMarker '+' true (jsTrim line) := rfl

theorem parse_contexts (line : List Char) :
    (parseTodoLine line).contexts = scanMarker '@' true (jsTrim line) := rfl

theorem parse_tags (line : List Char) :
    (parseTodoLine line).tags = buildTags (scanTags (jsTrim line)) := rfl

theorem parse_priority (line : List Char) :
    (parseTodoLine line).priority =
      (matchPriority (remAfterX line)).map (fun x => [x.1]) := rfl

theorem parse_completionDate (line : List Char) :
    (parseTodoLine line).completionDate =
      (dateStep (startsWithX (jsTrim line)) (remAfterPriority line)).1 := rfl

theorem parse_creationDate (line : List Char) :
    (parseTodoLine line).creationDate =
      (dateStep (startsWithX (jsTrim line)) (remAfterPriority line)).2.1 := rfl

theorem parse_description (line : List Char) :
    (parseTodoLine line).description =
      (dateStep (startsWithX (jsTrim line)) (remAfterPriority line)).2.2 := rfl

/-! ### Shape facts about the remainders -/

theorem all_of_dropWhile_nil {p : Char → Bool} {l : List Char}
    (h : l.dropWhile p = []) : l.all p = true := by
  induction l with
  | nil => rfl
  | cons c rest ih =>
    by_cases hc : p c
    · rw [List.dropWhile_cons_of_pos hc] at h
      simp [hc, ih h]
    · rw [List.dropWhile_cons_of_neg hc] at h
      simp at h

theorem mem_of_getLast {l : List Char} {a : Char} (h : l.getLast? = some a) :
    a ∈ l := by
  have := List.mem_getLast?_eq_getLast (l := l) (x := a) (by rw [h]; rfl)
  obtain ⟨hne, rfl⟩ := this
  exact List.getLast_mem hne

theorem noTrail_of_all_elim {l : List Char} (hall : l.all isWS = true)
    (hnt : noTrailWS l) : l = [] := by
  cases he : l.getLast? with
  | some c =>
    have h1 := hnt c he
    have h2 : isWS c = true := by
      rw [List.all_eq_true] at hall
      exact hall c (mem_of_getLast he)
    rw [h2] at h1
    exact absurd h1 (by simp)
  | none =>
    cases l with
    | nil => rfl
    | cons d rest => rw [List.getLast?_eq_getLast_of_ne_nil (by simp)] at he; simp at he

theorem completed_decomp {line : List Char} (h : startsWithX (jsTrim line) = true) :
    ∃ rest, jsTrim line = 'x' :: ' ' :: rest ∧ rest ≠ [] ∧ noTrailWS rest ∧
      remAfterX line = rest.dropWhile isWS ∧ remAfterX line ≠ [] := by
  obtain ⟨rest, hT⟩ := startsWithX_iff.mp h
  have hTnt := jsTrim_noTrail line
  have hrne : rest ≠ [] := by
    intro he
    subst he
    rw [hT] at hTnt
    have := hTnt ' ' (by rfl)
    exact absurd this (by simp [isWS])
  have hrnt : noTrailWS rest := by
    have : jsTrim line = ['x', ' '] ++ rest := by rw [hT]; rfl
    rw [this] at hTnt
    exact noTrailWS_of_append hrne hTnt
  have hrem : remAfterX line = rest.dropWhile isWS := by
    unfold remAfterX
    rw [if_pos h, hT]
    show jsTrim rest = rest.dropWhile isWS
    exact jsTrim_of_noTrail hrnt
  refine ⟨rest, hT, hrne, hrnt, hrem, ?_⟩
  rw [hrem]
  intro he
  exact hrne (noTrail_of_all_elim (all_of_dropWhile_nil he) hrnt)

theorem remAfterX_noLead (line : List Char) : noLeadWS (remAfterX line) := by
  by_cases h : startsWithX (jsTrim line) = true
  · obtain ⟨rest, -, -, -, hrem, -⟩ := completed_decomp h
    rw [hrem]
    exact noLeadWS_dropWhile rest
  · unfold remAfterX
    rw [if_neg h]
    exact jsTrim_noLead line

theorem remAfterX_noTrail (line : List Char) : noTrailWS (remAfterX line) := by
  by_cases h : startsWithX (jsTrim line) = true
  · obtain ⟨rest, -, -, hrnt, hrem, hne⟩ := completed_decomp h
    rw [hrem] at hne ⊢
    intro c hc
    rw [getLastDropWhile hne] at hc
    exact hrnt c hc
  · unfold remAfterX
    rw [if_neg h]
    exact jsTrim_noTrail line

theorem seg_noTrail {s pre r : List Char} {w : Char}
    (hs : s = pre ++ w :: r) (hw : isWS w = true) (hnt : noTrailWS s) :
    r ≠ [] ∧ noTrailWS r := by
  have hrne : r ≠ [] := by
    intro he
    subst he
    rw [hs] at hnt
    have := hnt w (by rw [getLastAppend (by simp)]; rfl)
    rw [hw] at this
    exact absurd this (by simp)
  constructor
  · exact hrne
  · have : s = (pre ++ [w]) ++ r := by rw [hs]; simp
    rw [this] at hnt
    exact noTrailWS_of_append hrne hnt

theorem remAfterPriority_facts (line : List Char) :
    remAfterPriority line ≠ [] ∧ noTrailWS (remAfterPriority line) ∨
    matchPriority (remAfterX line) = none ∧ remAfterPriority line = remAfterX line := by
  cases hm : matchPriority (remAfterX line) with
  | none =>
    right
    unfold remAfterPriority
    rw [hm]
    exact ⟨rfl, rfl⟩
  | some pr =>
    left
    obtain ⟨w, hdec, -, hw⟩ := matchPriority_some (p := pr.1) (r := pr.2)
      (by rw [hm])
    have hseg := seg_noTrail
      (show remAfterX line = ['(', pr.1, ')'] ++ w :: pr.2 by rw [hdec]; rfl)
      hw (remAfterX_noTrail line)
    unfold remAfterPriority
    rw [hm]
    exact hseg

theorem dateStep_noTrail {com : Bool} {r : List Char} (hnt : noTrailWS r) :
    noTrailWS (dateStep com r).2.2 ∧
    ((dateStep com r).1 ≠ none ∨ (dateStep com r).2.1 ≠ none → (dateStep com r).2.2 ≠ []) := by
  cases h1 : matchDate r with
  | none =>
    simp only [dateStep, h1]
    exact ⟨hnt, by intro h; rcases h with h | h <;> simp at h⟩
  | some dr =>
    obtain ⟨d1, r2⟩ := dr
    obtain ⟨w1, hdec1, hd1, hw1⟩ := matchDate_some (d := d1) (r := r2) (by rw [h1])
    have hseg1 := seg_noTrail hdec1 hw1 hnt
    cases h2 : matchDate r2 with
    | none =>
      cases com with
      | true =>
        simp only [dateStep, h1, h2, if_pos rfl]
        exact ⟨hseg1.2, fun _ => hseg1.1⟩
      | false =>
        simp only [dateStep, h1, h2]
        rw [if_neg (by simp)]
        exact ⟨hseg1.2, fun _ => hseg1.1⟩
    | some dr2 =>
      obtain ⟨d2, r3⟩ := dr2
      obtain ⟨w2, hdec2, hd2, hw2⟩ := matchDate_some (d := d2) (r := r3) (by rw [h2])
      have hseg2 := seg_noTrail hdec2 hw2 hseg1.2
      simp only [dateStep, h1, h2]
      exact ⟨hseg2.2, fun _ => hseg2.1⟩

theorem noTrail_append {A B : List Char} (hB : B ≠ []) (h : noTrailWS B) :
    noTrailWS (A ++ B) := by
  intro c hc
  rw [getLastAppend hB] at hc
  exact h c hc

theorem noLead_cons {c : Char} {rest : List Char} (h : isWS c = false) :
    noLeadWS (c :: rest) := by
  intro d hd
  simp only [List.head?_cons, Option.some.injEq] at hd
  subst hd
  exact h

theorem head_append_of_ne {A B : List Char} (hA : A ≠ []) :
    (A ++ B).head? = A.head? := by
  cases A with
  | nil => exact absurd rfl hA
  | cons c rest => rfl

theorem noLead_append {A B : List Char} (hA : A ≠ []) (h : noLeadWS A) :
    noLeadWS (A ++ B) := by
  intro c hc
  rw [head_append_of_ne hA] at hc
  exact h c hc

theorem isWS_false_of_digit {c : Char} (h : isDigit c = true) : isWS c = false := by
  have := nonWS_of_digit h
  simpa [nonWS] using this

theorem noLead_of_dateToken {d : List Char} (h : isDateToken d = true) :
    noLeadWS d := by
  intro c hc
  exact isWS_false_of_digit ((isDateToken_elim h).2.2.2 c hc)

theorem dateToken_ne_nil {d : List Char} (h : isDateToken d = true) : d ≠ [] :=
  (isDateToken_elim h).2.1

theorem dateToken_isEmpty_false {d : List Char} (h : isDateToken d = true) :
    d.isEmpty = false := by
  simp [List.isEmpty_iff, dateToken_ne_nil h]

theorem dateToken_head_digit {d : List Char} (h : isDateToken d = true) :
    ∃ c, d.head? = some c ∧ isDigit c = true := by
  cases d with
  | nil => exact absurd h (by simp [isDateToken])
  | cons c rest => exact ⟨c, rfl, (isDateToken_elim h).2.2.2 c rfl⟩

theorem noLead_of_head {s : List Char} {c : Char} (h : s.head? = some c)
    (hc : isWS c = false) : noLeadWS s := by
  intro d hd
  rw [h] at hd
  simp only [Option.some.injEq] at hd
  subst hd
  exact hc

/-- Re-parsing a canonical serialization: if the record's fields have the
shapes that `parseTodoLine` itself produces (single uppercase priority
letter, date-format date strings, trimmed description, completion date
only on completed records, creation date accompanying a completion date
on completed records, and the description free of residual prefix
tokens), then parsing the serialization recovers every grammar field. -/
theorem parse_canonical (t : Todo)
    (hp : ∀ ps, t.priority = some ps → ∃ p, ps = [p] ∧ isUpperAZ p = true)
    (hcd : ∀ d, t.completionDate = some d → isDateToken d = true)
    (hcrd : ∀ d, t.creationDate = some d → isDateToken d = true)
    (hdt : noTrailWS t.description)
    (hcdcom : t.completionDate ≠ none → t.completed = true)
    (hcc : t.completed = true → t.creationDate ≠ none → t.completionDate ≠ none)
    (hne : t.completed = true ∨ t.priority ≠ none ∨ t.completionDate ≠ none ∨
      t.creationDate ≠ none → t.description ≠ [])
    (hdlead : t.priority = none → t.completionDate = none → t.creationDate = none →
      noLeadWS t.description)
    (hpd : t.priority = none → t.completionDate = none → t.creationDate = none →
      matchPriority t.description = none)
    (hdd : t.completionDate = none ∨ t.creationDate = none →
      matchDate t.description = none)
    (hxd : t.completed = false → t.priority = none → t.completionDate = none →
      t.creationDate = none → startsWithX t.description = false) :
    jsTrim (serializeTodo t) = serializeTodo t ∧
    (parseTodoLine (serializeTodo t)).completed = t.completed ∧
    (parseTodoLine (serializeTodo t)).priority = t.priority ∧
    (parseTodoLine (serializeTodo t)).completionDate = t.completionDate ∧
    (parseTodoLine (serializeTodo t)).creationDate = t.creationDate ∧
    (parseTodoLine (serializeTodo t)).description = t.description := by
  set desc := t.description with hdesc
  cases hcomv : t.completed with
  | true =>
    have hdne : desc ≠ [] := hne (Or.inl hcomv)
    cases hprv : t.priority with
    | some ps =>
      obtain ⟨p0, rfl, hp0⟩ := hp ps hprv
      cases hcdv : t.completionDate with
      | some d1 =>
        have hd1 := hcd d1 hcdv
        cases hcrdv : t.creationDate with
        | some d2 =>
          have hd2 := hcrd d2 hcrdv
          have hS : serializeTodo t =
              ['x', ' '] ++ ('(' :: p0 :: [')', ' ']) ++ (d1 ++ [' ']) ++ (d2 ++ [' ']) ++ desc := by
            simp only [serializeTodo, hcomv, hprv, hcdv, hcrdv, if_pos rfl,
              dateToken_isEmpty_false hd1, dateToken_isEmpty_false hd2]
            simp
          have htrim : jsTrim (serializeTodo t) = serializeTodo t := by
            rw [hS]
            exact jsTrim_eq_self (noLead_cons (by decide)) (noTrail_append hdne hdt)
          have hsx : startsWithX (serializeTodo t) = true := by rw [hS]; rfl
          have hdrop : (serializeTodo t).drop 2 =
              ['(', p0, ')', ' '] ++ (d1 ++ [' ']) ++ (d2 ++ [' ']) ++ desc := by
            rw [hS]; rfl
          have hrx : remAfterX (serializeTodo t) =
              ['(', p0, ')', ' '] ++ (d1 ++ [' ']) ++ (d2 ++ [' ']) ++ desc := by
            unfold remAfterX
            rw [htrim, if_pos hsx, hdrop]
            exact jsTrim_eq_self (noLead_of_head (c := '(') rfl (by decide))
              (noTrail_append hdne hdt)
          have hmp : matchPriority (remAfterX (serializeTodo t)) =
              some (p0, (d1 ++ [' ']) ++ (d2 ++ [' ']) ++ desc) := by
            rw [hrx]
            exact matchPriority_build (w := ' ') hp0 (by decide)
          have hrp : remAfterPriority (serializeTodo t) =
              (d1 ++ [' ']) ++ (d2 ++ [' ']) ++ desc := by
            unfold remAfterPriority
            rw [hmp]
          have hshape1 : (d1 ++ [' ']) ++ (d2 ++ [' ']) ++ desc =
              d1 ++ ' ' :: ((d2 ++ [' ']) ++ desc) := by simp [List.append_assoc]
          have hshape2 : (d2 ++ [' ']) ++ desc = d2 ++ ' ' :: desc := by
            simp [List.append_assoc]
          have hds : dateStep (startsWithX (jsTrim (serializeTodo t)))
              (remAfterPriority (serializeTodo t)) = (some d1, some d2, desc) := by
            rw [htrim, hsx, hrp, hshape1, hshape2]
            simp only [dateStep, matchDate_build (w := ' ') hd1 (by decide),
              matchDate_build (w := ' ') hd2 (by decide)]
          refine ⟨htrim, ?_, ?_, ?_, ?_, ?_⟩
          · rw [parse_completed, htrim, hsx]
          · rw [parse_priority, hmp]; rfl
          · rw [parse_completionDate, hds]
          · rw [parse_creationDate, hds]
          · rw [parse_description, hds]
        | none =>
          have hmd : matchDate desc = none := hdd (Or.inr hcrdv)
          have hS : serializeTodo t =
              ['x', ' '] ++ ('(' :: p0 :: [')', ' ']) ++ (d1 ++ [' ']) ++ desc := by
            simp only [serializeTodo, hcomv, hprv, hcdv, hcrdv, if_pos rfl,
              dateToken_isEmpty_false hd1]
            simp
          have htrim : jsTrim (serializeTodo t) = serializeTodo t := by
            rw [hS]
            exact jsTrim_eq_self (noLead_cons (by decide)) (noTrail_append hdne hdt)
          have hsx : startsWithX (serializeTodo t) = true := by rw [hS]; rfl
          have hdrop : (serializeTodo t).drop 2 =
              ['(', p0, ')', ' '] ++ (d1 ++ [' ']) ++ desc := by
            rw [hS]; rfl
          have hrx : remAfterX (serializeTodo t) =
              ['(', p0, ')', ' '] ++ (d1 ++ [' ']) ++ desc := by
            unfold remAfterX
            rw [htrim, if_pos hsx, hdrop]
            exact jsTrim_eq_self (noLead_of_head (c := '(') rfl (by decide))
              (noTrail_append hdne hdt)
          have hmp : matchPriority (remAfterX (serializeTodo t)) =
              some (p0, (d1 ++ [' ']) ++ desc) := by
            rw [hrx]
            exact matchPriority_build (w := ' ') hp0 (by decide)
          have hrp : remAfterPriority (serializeTodo t) = (d1 ++ [' ']) ++ desc := by
            unfold remAfterPriority
            rw [hmp]
          have hshape1 : (d1 ++ [' ']) ++ desc = d1 ++ ' ' :: desc := by
            simp [List.append_assoc]
          have hds : dateStep (startsWithX (jsTrim (serializeTodo t)))
              (remAfterPriority (serializeTodo t)) = (some d1, none, desc) := by
            rw [htrim, hsx, hrp, hshape1]
            simp only [dateStep, matchDate_build (w := ' ') hd1 (by decide), hmd]
            simp
          refine ⟨htrim, ?_, ?_, ?_, ?_, ?_⟩
          · rw [parse_completed, htrim, hsx]
          · rw [parse_priority, hmp]; rfl
          · rw [parse_completionDate, hds]
          · rw [parse_creationDate, hds]
          · rw [parse_description, hds]
      | none =>
        cases hcrdv : t.creationDate with
        | some d2 => exact absurd (hcc hcomv (by simp [hcrdv])) (by simp [hcdv])
        | none =>
          have hmd : matchDate desc = none := hdd (Or.inl hcdv)
          have hS : serializeTodo t =
              ['x', ' '] ++ ('(' :: p0 :: [')', ' ']) ++ desc := by
            simp only [serializeTodo, hcomv, hprv, hcdv, hcrdv, if_pos rfl]
            simp
          have htrim : jsTrim (serializeTodo t) = serializeTodo t := by
            rw [hS]
            exact jsTrim_eq_self (noLead_cons (by decide)) (noTrail_append hdne hdt)
          have hsx : startsWithX (serializeTodo t) = true := by rw [hS]; rfl
          have hdrop : (serializeTodo t).drop 2 = ['(', p0, ')', ' '] ++ desc := by
            rw [hS]; rfl
          have hrx : remAfterX (serializeTodo t) = ['(', p0, ')', ' '] ++ desc := by
            unfold remAfterX
            rw [htrim, if_pos hsx, hdrop]
            exact jsTrim_eq_self (noLead_of_head (c := '(') rfl (by decide))
              (noTrail_append hdne hdt)
          have hmp : matchPriority (remAfterX (serializeTodo t)) = some (p0, desc) := by
            rw [hrx]
            exact matchPriority_build (w := ' ') hp0 (by decide)
          have hrp : remAfterPriority (serializeTodo t) = desc := by
            unfold remAfterPriority
            rw [hmp]
          have hds : dateStep (startsWithX (jsTrim (serializeTodo t)))
              (remAfterPriority (serializeTodo t)) = (none, none, desc) := by
            rw [htrim, hsx, hrp]
            simp only [dateStep, hmd]
          refine ⟨htrim, ?_, ?_, ?_, ?_, ?_⟩
          · rw [parse_completed, htrim, hsx]
          · rw [parse_priority, hmp]; rfl
          · rw [parse_completionDate, hds]
          · rw [parse_creationDate, hds]
          · rw [parse_description, hds]
    | none =>
      cases hcdv : t.completionDate with
      | some d1 =>
        have hd1 := hcd d1 hcdv
        obtain ⟨c1, hc1h, hc1d⟩ := dateToken_head_digit hd1
        have hd1ne := dateToken_ne_nil hd1
        cases hcrdv : t.creationDate with
        | some d2 =>
          have hd2 := hcrd d2 hcrdv
          have hS : serializeTodo t =
              ['x', ' '] ++ (d1 ++ [' ']) ++ (d2 ++ [' ']) ++ desc := by
            simp only [serializeTodo, hcomv, hprv, hcdv, hcrdv, if_pos rfl,
              dateToken_isEmpty_false hd1, dateToken_isEmpty_false hd2]
            simp
          have htrim : jsTrim (serializeTodo t) = serializeTodo t := by
            rw [hS]
            exact jsTrim_eq_self (noLead_cons (by decide)) (noTrail_append hdne hdt)
          have hsx : startsWithX (serializeTodo t) = true := by rw [hS]; rfl
          have hdrop : (serializeTodo t).drop 2 =
              (d1 ++ [' ']) ++ (d2 ++ [' ']) ++ desc := by
            rw [hS]; rfl
          have hhead : ((d1 ++ [' ']) ++ (d2 ++ [' ']) ++ desc).head? = some c1 := by
            rw [head_append_of_ne (by simp), head_append_of_ne (by simp [hd1ne]),
              head_append_of_ne hd1ne]
            exact hc1h
          have hrx : remAfterX (serializeTodo t) =
              (d1 ++ [' ']) ++ (d2 ++ [' ']) ++ desc := by
            unfold remAfterX
            rw [htrim, if_pos hsx, hdrop]
            exact jsTrim_eq_self (noLead_of_head hhead (isWS_false_of_digit hc1d))
              (noTrail_append hdne hdt)
          have hmp : matchPriority (remAfterX (serializeTodo t)) = none := by
            rw [hrx]
            exact matchPriority_none_of_digit hhead hc1d
          have hrp : remAfterPriority (serializeTodo t) =
              (d1 ++ [' ']) ++ (d2 ++ [' ']) ++ desc := by
            unfold remAfterPriority
            rw [hmp, hrx]
          have hshape1 : (d1 ++ [' ']) ++ (d2 ++ [' ']) ++ desc =
              d1 ++ ' ' :: ((d2 ++ [' ']) ++ desc) := by simp [List.append_assoc]
          have hshape2 : (d2 ++ [' ']) ++ desc = d2 ++ ' ' :: desc := by
            simp [List.append_assoc]
          have hds : dateStep (startsWithX (jsTrim (serializeTodo t)))
              (remAfterPriority (serializeTodo t)) = (some d1, some d2, desc) := by
            rw [htrim, hsx, hrp, hshape1, hshape2]
            simp only [dateStep, matchDate_build (w := ' ') hd1 (by decide),
              matchDate_build (w := ' ') hd2 (by decide)]
          refine ⟨htrim, ?_, ?_, ?_, ?_, ?_⟩
          · rw [parse_completed, htrim, hsx]
          · rw [parse_priority, hmp]; rfl
          · rw [parse_completionDate, hds]
          · rw [parse_creationDate, hds]
          · rw [parse_description, hds]
        | none =>
          have hmd : matchDate desc = none := hdd (Or.inr hcrdv)
          have hS : serializeTodo t = ['x', ' '] ++ (d1 ++ [' ']) ++ desc := by
            simp only [serializeTodo, hcomv, hprv, hcdv, hcrdv, if_pos rfl,
              dateToken_isEmpty_false hd1]
            simp
          have htrim : jsTrim (serializeTodo t) = serializeTodo t := by
            rw [hS]
            exact jsTrim_eq_self (noLead_cons (by decide)) (noTrail_append hdne hdt)
          have hsx : startsWithX (serializeTodo t) = true := by rw [hS]; rfl
          have hdrop : (serializeTodo t).drop 2 = (d1 ++ [' ']) ++ desc := by
            rw [hS]; rfl
          have hhead : ((d1 ++ [' ']) ++ desc).head? = some c1 := by
            rw [head_append_of_ne (by simp [hd1ne]), head_append_of_ne hd1ne]
            exact hc1h
          have hrx : remAfterX (serializeTodo t) = (d1 ++ [' ']) ++ desc := by
            unfold remAfterX
            rw [htrim, if_pos hsx, hdrop]
            exact jsTrim_eq_self (noLead_of_head hhead (isWS_false_of_digit hc1d))
              (noTrail_append hdne hdt)
          have hmp : matchPriority (remAfterX (serializeTodo t)) = none := by
            rw [hrx]
            exact matchPriority_none_of_digit hhead hc1d
          have hrp : remAfterPriority (serializeTodo t) = (d1 ++ [' ']) ++ desc := by
            unfold remAfterPriority
            rw [hmp, hrx]
          have hshape1 : (d1 ++ [' ']) ++ desc = d1 ++ ' ' :: desc := by
            simp [List.append_assoc]
          have hds : dateStep (startsWithX (jsTrim (serializeTodo t)))
              (remAfterPriority (serializeTodo t)) = (some d1, none, desc) := by
            rw [htrim, hsx, hrp, hshape1]
            simp only [dateStep, matchDate_build (w := ' ') hd1 (by decide), hmd]
            simp
          refine ⟨htrim, ?_, ?_, ?_, ?_, ?_⟩
          · rw [parse_completed, htrim, hsx]
          · rw [parse_priority, hmp]; rfl
          · rw [parse_completionDate, hds]
          · rw [parse_creationDate, hds]
          · rw [parse_description, hds]
      | none =>
        cases hcrdv : t.creationDate with
        | some d2 => exact absurd (hcc hcomv (by simp [hcrdv])) (by simp [hcdv])
        | none =>
          have hmd : matchDate desc = none := hdd (Or.inl hcdv)
          have hmpd : matchPriority desc = none := hpd hprv hcdv hcrdv
          have hlead : noLeadWS desc := hdlead hprv hcdv hcrdv
          have hS : serializeTodo t = ['x', ' '] ++ desc := by
            simp only [serializeTodo, hcomv, hprv, hcdv, hcrdv, if_pos rfl]
            simp
          have htrim : jsTrim (serializeTodo t) = serializeTodo t := by
            rw [hS]
            exact jsTrim_eq_self (noLead_cons (by decide)) (noTrail_append hdne hdt)
          have hsx : startsWithX (serializeTodo t) = true := by rw [hS]; rfl
          have hdrop : (serializeTodo t).drop 2 = desc := by rw [hS]; rfl
          have hrx : remAfterX (serializeTodo t) = desc := by
            unfold remAfterX
            rw [htrim, if_pos hsx, hdrop]
            exact jsTrim_eq_self hlead hdt
          have hmp : matchPriority (remAfterX (serializeTodo t)) = none := by
            rw [hrx]; exact hmpd
          have hrp : remAfterPriority (serializeTodo t) = desc := by
            unfold remAfterPriority
            rw [hmp, hrx]
          have hds : dateStep (startsWithX (jsTrim (serializeTodo t)))
              (remAfterPriority (serializeTodo t)) = (none, none, desc) := by
            rw [htrim, hsx, hrp]
            simp only [dateStep, hmd]
          refine ⟨htrim, ?_, ?_, ?_, ?_, ?_⟩
          · rw [parse_completed, htrim, hsx]
          · rw [parse_priority, hmp]; rfl
          · rw [parse_completionDate, hds]
          · rw [parse_creationDate, hds]
          · rw [parse_description, hds]
  | false =>
    cases hcdv : t.completionDate with
    | some d1 => exact absurd (hcdcom (by simp [hcdv])) (by simp [hcomv])
    | none =>
      cases hprv : t.priority with
      | some ps =>
        obtain ⟨p0, rfl, hp0⟩ := hp ps hprv
        have hdne : desc ≠ [] := hne (Or.inr (Or.inl (by simp [hprv])))
        cases hcrdv : t.creationDate with
        | some d2 =>
          have hd2 := hcrd d2 hcrdv
          have hmd : matchDate desc = none := hdd (Or.inl hcdv)
          have hS : serializeTodo t =
              ('(' :: p0 :: [')', ' ']) ++ (d2 ++ [' ']) ++ desc := by
            simp only [serializeTodo, hcomv, hprv, hcdv, hcrdv,
              dateToken_isEmpty_false hd2]
            simp
          have htrim : jsTrim (serializeTodo t) = serializeTodo t := by
            rw [hS]
            exact jsTrim_eq_self (noLead_cons (by decide)) (noTrail_append hdne hdt)
          have hsx : startsWithX (serializeTodo t) = false := by rw [hS]; rfl
          have hrx : remAfterX (serializeTodo t) = serializeTodo t := by
            unfold remAfterX
            rw [htrim, hsx]
            simp only [Bool.false_eq_true, if_false]
          have hmp : matchPriority (remAfterX (serializeTodo t)) =
              some (p0, (d2 ++ [' ']) ++ desc) := by
            rw [hrx, hS]
            exact matchPriority_build (w := ' ') hp0 (by decide)
          have hrp : remAfterPriority (serializeTodo t) = (d2 ++ [' ']) ++ desc := by
            unfold remAfterPriority
            rw [hmp]
          have hshape2 : (d2 ++ [' ']) ++ desc = d2 ++ ' ' :: desc := by
            simp [List.append_assoc]
          have hds : dateStep (startsWithX (jsTrim (serializeTodo t)))
              (remAfterPriority (serializeTodo t)) = (none, some d2, desc) := by
            rw [htrim, hsx, hrp, hshape2]
            simp only [dateStep, matchDate_build (w := ' ') hd2 (by decide), hmd]
            simp
          refine ⟨htrim, ?_, ?_, ?_, ?_, ?_⟩
          · rw [parse_completed, htrim, hsx]
          · rw [parse_priority, hmp]; rfl
          · rw [parse_completionDate, hds]
          · rw [parse_creationDate, hds]
          · rw [parse_description, hds]
        | none =>
          have hmd : matchDate desc = none := hdd (Or.inl hcdv)
          have hS : serializeTodo t = ('(' :: p0 :: [')', ' ']) ++ desc := by
            simp only [serializeTodo, hcomv, hprv, hcdv, hcrdv]
            simp
          have htrim : jsTrim (serializeTodo t) = serializeTodo t := by
            rw [hS]
            exact jsTrim_eq_self (noLead_cons (by decide)) (noTrail_append hdne hdt)
          have hsx : startsWithX (serializeTodo t) = false := by rw [hS]; rfl
          have hrx : remAfterX (serializeTodo t) = serializeTodo t := by
            unfold remAfterX
            rw [htrim, hsx]
            simp only [Bool.false_eq_true, if_false]
          have hmp : matchPriority (remAfterX (serializeTodo t)) = some (p0, desc) := by
            rw [hrx, hS]
            exact matchPriority_build (w := ' ') hp0 (by decide)
          have hrp : remAfterPriority (serializeTodo t) = desc := by
            unfold remAfterPriority
            rw [hmp]
          have hds : dateStep (startsWithX (jsTrim (serializeTodo t)))
              (remAfterPriority (serializeTodo t)) = (none, none, desc) := by
            rw [htrim, hsx, hrp]
            simp only [dateStep, hmd]
          refine ⟨htrim, ?_, ?_, ?_, ?_, ?_⟩
          · rw [parse_completed, htrim, hsx]
          · rw [parse_priority, hmp]; rfl
          · rw [parse_completionDate, hds]
          · rw [parse_creationDate, hds]
          · rw [parse_description, hds]
      | none =>
        cases hcrdv : t.creationDate with
        | some d2 =>
          have hd2 := hcrd d2 hcrdv
          obtain ⟨c2, hc2h, hc2d⟩ := dateToken_head_digit hd2
          have hd2ne := dateToken_ne_nil hd2
          have hdne : desc ≠ [] := hne (Or.inr (Or.inr (Or.inr (by simp [hcrdv]))))
          have hmd : matchDate desc = none := hdd (Or.inl hcdv)
          have hS : serializeTodo t = (d2 ++ [' ']) ++ desc := by
            simp only [serializeTodo, hcomv, hprv, hcdv, hcrdv,
              dateToken_isEmpty_false hd2]
            simp
          have hhead : ((d2 ++ [' ']) ++ desc).head? = some c2 := by
            rw [head_append_of_ne (by simp [hd2ne]), head_append_of_ne hd2ne]
            exact hc2h
          have htrim : jsTrim (serializeTodo t) = serializeTodo t := by
            rw [hS]
            exact jsTrim_eq_self (noLead_of_head hhead (isWS_false_of_digit hc2d))
              (noTrail_append hdne hdt)
          have hsx : startsWithX (serializeTodo t) = false := by
            rw [hS]
            exact startsWithX_false_of_digit hhead hc2d
          have hrx : remAfterX (serializeTodo t) = serializeTodo t := by
            unfold remAfterX
            rw [htrim, hsx]
            simp only [Bool.false_eq_true, if_false]
          have hmp : matchPriority (remAfterX (serializeTodo t)) = none := by
            rw [hrx, hS]
            exact matchPriority_none_of_digit hhead hc2d
          have hrp : remAfterPriority (serializeTodo t) = (d2 ++ [' ']) ++ desc := by
            unfold remAfterPriority
            rw [hmp, hrx, hS]
          have hshape2 : (d2 ++ [' ']) ++ desc = d2 ++ ' ' :: desc := by
            simp [List.append_assoc]
          have hds : dateStep (startsWithX (jsTrim (serializeTodo t)))
              (remAfterPriority (serializeTodo t)) = (none, some d2, desc) := by
            rw [htrim, hsx, hrp, hshape2]
            simp only [dateStep, matchDate_build (w := ' ') hd2 (by decide), hmd]
            simp
          refine ⟨htrim, ?_, ?_, ?_, ?_, ?_⟩
          · rw [parse_completed, htrim, hsx]
          · rw [parse_priority, hmp]; rfl
          · rw [parse_completionDate, hds]
          · rw [parse_creationDate, hds]
          · rw [parse_description, hds]
        | none =>
          have hmd : matchDate desc = none := hdd (Or.inl hcdv)
          have hmpd : matchPriority desc = none := hpd hprv hcdv hcrdv
          have hlead : noLeadWS desc := hdlead hprv hcdv hcrdv
          have hxdesc : startsWithX desc = false := hxd hcomv hprv hcdv hcrdv
          have hS : serializeTodo t = desc := by
            simp only [serializeTodo, hcomv, hprv, hcdv, hcrdv]
            simp
          have htrim : jsTrim (serializeTodo t) = serializeTodo t := by
            rw [hS]
            exact jsTrim_eq_self hlead hdt
          have hsx : startsWithX (serializeTodo t) = false := by
            rw [hS]; exact hxdesc
          have hrx : remAfterX (serializeTodo t) = desc := by
            unfold remAfterX
            rw [htrim, hsx]
            simp only [Bool.false_eq_true, if_false]
            exact hS
          have hmp : matchPriority (remAfterX (serializeTodo t)) = none := by
            rw [hrx]; exact hmpd
          have hrp : remAfterPriority (serializeTodo t) = desc := by
            unfold remAfterPriority
            rw [hmp, hrx]
          have hds : dateStep (startsWithX (jsTrim (serializeTodo t)))
              (remAfterPriority (serializeTodo t)) = (none, none, desc) := by
            rw [htrim, hsx, hrp]
            simp only [dateStep, hmd]
          refine ⟨htrim, ?_, ?_, ?_, ?_, ?_⟩
          · rw [parse_completed, htrim, hsx]
          · rw [parse_priority, hmp]; rfl
          · rw [parse_completionDate, hds]
          · rw [parse_creationDate, hds]
          · rw [parse_description, hds]

theorem tokens_single {A : List Char} (hA : A.all nonWS = true) (hne : A ≠ []) :
    tokens A = [A] := by
  have := tokens_run (s := []) hA hne wsHead_nil
  rw [List.append_nil, tokens_nil] at this
  exact this

/-- The tokens of a line grouped by the grammar fields its parse
extracts: completion mark, priority token, dates, description tokens. -/
def fieldTokens (t : Todo) : List (List Char) :=
  (if t.completed then [['x']] else []) ++
  (match t.priority with | some ps => ['(' :: ps ++ [')']] | none => []) ++
  (match t.completionDate with | some d => [d] | none => []) ++
  (match t.creationDate with | some d => [d] | none => []) ++
  tokens t.description

theorem dateStep_facts (com : Bool) (r : List Char) :
    (∀ d, (dateStep com r).1 = some d → isDateToken d = true) ∧
    (∀ d, (dateStep com r).2.1 = some d → isDateToken d = true) ∧
    (com = true → (dateStep com r).2.1 ≠ none → (dateStep com r).1 ≠ none) ∧
    ((dateStep com r).1 = none ∨ (dateStep com r).2.1 = none →
      matchDate (dateStep com r).2.2 = none) ∧
    ((dateStep com r).1 = none ∧ (dateStep com r).2.1 = none →
      (dateStep com r).2.2 = r) := by
  cases h1 : matchDate r with
  | none =>
    exact ⟨by simp [dateStep, h1], by simp [dateStep, h1], by simp [dateStep, h1],
      by simp [dateStep, h1], by simp [dateStep, h1]⟩
  | some dr =>
    obtain ⟨d1, r2⟩ := dr
    obtain ⟨w1, hdec1, hd1, hw1⟩ := matchDate_some (d := d1) (r := r2) (by rw [h1])
    cases h2 : matchDate r2 with
    | none =>
      cases com with
      | true =>
        exact ⟨by simp [dateStep, h1, h2, hd1], by simp [dateStep, h1, h2],
          by simp [dateStep, h1, h2], by simp [dateStep, h1, h2],
          by simp [dateStep, h1, h2]⟩
      | false =>
        exact ⟨by simp [dateStep, h1, h2], by simp [dateStep, h1, h2, hd1],
          by simp [dateStep, h1, h2], by simp [dateStep, h1, h2],
          by simp [dateStep, h1, h2]⟩
    | some dr2 =>
      obtain ⟨d2, r3⟩ := dr2
      obtain ⟨w2, hdec2, hd2, hw2⟩ := matchDate_some (d := d2) (r := r3) (by rw [h2])
      exact ⟨by simp [dateStep, h1, h2, hd1], by simp [dateStep, h1, h2, hd2],
        by simp [dateStep, h1, h2], by simp [dateStep, h1, h2],
        by simp [dateStep, h1, h2]⟩

theorem dateStep_tokens (com : Bool) (r : List Char) :
    tokens r =
      (match (dateStep com r).1 with | some d => [d] | none => []) ++
      (match (dateStep com r).2.1 with | some d => [d] | none => []) ++
      tokens (dateStep com r).2.2 := by
  cases h1 : matchDate r with
  | none =>
    simp only [dateStep, h1]
    rfl
  | some dr =>
    obtain ⟨d1, r2⟩ := dr
    obtain ⟨w1, hdec1, hd1, hw1⟩ := matchDate_some (d := d1) (r := r2) (by rw [h1])
    have ht1 : tokens r = [d1] ++ tokens r2 := by
      rw [hdec1, tokens_sep hw1,
        tokens_single (isDateToken_elim hd1).2.2.1 (isDateToken_elim hd1).2.1]
    cases h2 : matchDate r2 with
    | none =>
      cases com with
      | true =>
        simp only [dateStep, h1, h2, if_pos rfl]
        rw [ht1]
        rfl
      | false =>
        simp only [dateStep, h1, h2]
        rw [if_neg (by simp), ht1]
        rfl
    | some dr2 =>
      obtain ⟨d2, r3⟩ := dr2
      obtain ⟨w2, hdec2, hd2, hw2⟩ := matchDate_some (d := d2) (r := r3) (by rw [h2])
      have ht2 : tokens r2 = [d2] ++ tokens r3 := by
        rw [hdec2, tokens_sep hw2,
          tokens_single (isDateToken_elim hd2).2.2.1 (isDateToken_elim hd2).2.1]
      simp only [dateStep, h1, h2]
      rw [ht1, ht2]
      rfl

theorem tokens_trim_completed (l : List Char) (h : startsWithX (jsTrim l) = true) :
    tokens (jsTrim l) = ['x'] :: tokens (remAfterX l) := by
  obtain ⟨rest, hT, hrne, hrnt, hrem, hne0⟩ := completed_decomp h
  rw [hT, tokens_nonws_cons _ (by decide),
    List.takeWhile_cons_of_neg (by decide), List.dropWhile_cons_of_neg (by decide),
    tokens_ws_cons _ (by decide), hrem]
  congr 1
  conv_lhs => rw [← List.takeWhile_append_dropWhile isWS rest]
  exact tokens_allWS _ List.all_takeWhile

theorem tokens_trim_decomp (l : List Char) :
    tokens (jsTrim l) = fieldTokens (parseTodoLine l) := by
  unfold fieldTokens
  rw [parse_completed, parse_priority, parse_completionDate, parse_creationDate,
    parse_description]
  have hstep2 : tokens (remAfterX l) =
      (match (matchPriority (remAfterX l)).map (fun x => ([x.1] : List Char)) with
        | some ps => ['(' :: ps ++ [')']] | none => []) ++
      (match (dateStep (startsWithX (jsTrim l)) (remAfterPriority l)).1 with
        | some d => [d] | none => []) ++
      (match (dateStep (startsWithX (jsTrim l)) (remAfterPriority l)).2.1 with
        | some d => [d] | none => []) ++
      tokens (dateStep (startsWithX (jsTrim l)) (remAfterPriority l)).2.2 := by
    cases hm : matchPriority (remAfterX l) with
    | some pr =>
      obtain ⟨w, hdec, hup, hw⟩ := matchPriority_some (p := pr.1) (r := pr.2)
        (by rw [hm])
      have hallp : (['(', pr.1, ')'] : List Char).all nonWS = true := by
        simp only [List.all_cons, List.all_nil, Bool.and_eq_true]
        exact ⟨by decide, nonWS_of_upper hup, by decide, trivial⟩
      have hrp : remAfterPriority l = pr.2 := by
        unfold remAfterPriority
        rw [hm]
      have : tokens (remAfterX l) = [['(', pr.1, ')']] ++ tokens pr.2 := by
        rw [hdec]
        show tokens (['(', pr.1, ')'] ++ w :: pr.2) = _
        rw [tokens_sep hw, tokens_single hallp (by simp)]
      rw [this, hrp]
      simp [dateStep_tokens (startsWithX (jsTrim l)) pr.2, List.append_assoc]
    | none =>
      have hrp : remAfterPriority l = remAfterX l := by
        unfold remAfterPriority
        rw [hm]
      rw [hrp]
      simpa [List.append_assoc] using dateStep_tokens (startsWithX (jsTrim l)) (remAfterX l)
  by_cases hx : startsWithX (jsTrim l) = true
  · rw [if_pos hx, tokens_trim_completed l hx, hstep2]
    rfl
  · rw [if_neg hx]
    simp only [List.nil_append]
    have hrx : remAfterX l = jsTrim l := by
      unfold remAfterX
      rw [if_neg hx]
    conv_lhs => rw [← hrx]
    exact hstep2

theorem prioTok_all {p : Char} (h : isUpperAZ p = true) :
    (['(', p, ')'] : List Char).all nonWS = true := by
  simp only [List.all_cons, List.all_nil, Bool.and_eq_true]
  exact ⟨by decide, nonWS_of_upper h, by decide, trivial⟩

/-- The tokens of a canonical serialization are exactly the field
tokens followed by the description's tokens. -/
theorem serialize_tokens (t : Todo)
    (hp : ∀ ps, t.priority = some ps → ∃ p, ps = [p] ∧ isUpperAZ p = true)
    (hcd : ∀ d, t.completionDate = some d → isDateToken d = true)
    (hcrd : ∀ d, t.creationDate = some d → isDateToken d = true)
    (hcdcom : t.completionDate ≠ none → t.completed = true)
    (hcc : t.completed = true → t.creationDate ≠ none → t.completionDate ≠ none) :
    tokens (serializeTodo t) = fieldTokens t := by
  set desc := t.description with hdesc
  cases hcomv : t.completed with
  | true =>
    cases hprv : t.priority with
    | some ps =>
      obtain ⟨p0, rfl, hp0⟩ := hp ps hprv
      cases hcdv : t.completionDate with
      | some d1 =>
        have hd1 := hcd d1 hcdv
        cases hcrdv : t.creationDate with
        | some d2 =>
          have hd2 := hcrd d2 hcrdv
          have hS : serializeTodo t =
              ['x'] ++ ' ' :: (['(', p0, ')'] ++ ' ' :: (d1 ++ ' ' :: (d2 ++ ' ' :: desc))) := by
            simp only [serializeTodo, hcomv, hprv, hcdv, hcrdv, if_pos rfl,
              dateToken_isEmpty_false hd1, dateToken_isEmpty_false hd2]
            simp
          rw [hS, tokens_sep (by decide), tokens_sep (by decide),
            tokens_sep (by decide), tokens_sep (by decide),
            tokens_single (by decide) (by simp), tokens_single (prioTok_all hp0) (by simp),
            tokens_single (isDateToken_elim hd1).2.2.1 (isDateToken_elim hd1).2.1,
            tokens_single (isDateToken_elim hd2).2.2.1 (isDateToken_elim hd2).2.1]
          simp [fieldTokens, hcomv, hprv, hcdv, hcrdv]
        | none =>
          have hS : serializeTodo t =
              ['x'] ++ ' ' :: (['(', p0, ')'] ++ ' ' :: (d1 ++ ' ' :: desc)) := by
            simp only [serializeTodo, hcomv, hprv, hcdv, hcrdv, if_pos rfl,
              dateToken_isEmpty_false hd1]
            simp
          rw [hS, tokens_sep (by decide), tokens_sep (by decide), tokens_sep (by decide),
            tokens_single (by decide) (by simp), tokens_single (prioTok_all hp0) (by simp),
            tokens_single (isDateToken_elim hd1).2.2.1 (isDateToken_elim hd1).2.1]
          simp [fieldTokens, hcomv, hprv, hcdv, hcrdv]
      | none =>
        cases hcrdv : t.creationDate with
        | some d2 => exact absurd (hcc hcomv (by simp [hcrdv])) (by simp [hcdv])
        | none =>
          have hS : serializeTodo t = ['x'] ++ ' ' :: (['(', p0, ')'] ++ ' ' :: desc) := by
            simp only [serializeTodo, hcomv, hprv, hcdv, hcrdv, if_pos rfl]
            simp
          rw [hS, tokens_sep (by decide), tokens_sep (by decide),
            tokens_single (by decide) (by simp), tokens_single (prioTok_all hp0) (by simp)]
          simp [fieldTokens, hcomv, hprv, hcdv, hcrdv]
    | none =>
      cases hcdv : t.completionDate with
      | some d1 =>
        have hd1 := hcd d1 hcdv
        cases hcrdv : t.creationDate with
        | some d2 =>
          have hd2 := hcrd d2 hcrdv
          have hS : serializeTodo t =
              ['x'] ++ ' ' :: (d1 ++ ' ' :: (d2 ++ ' ' :: desc)) := by
            simp only [serializeTodo, hcomv, hprv, hcdv, hcrdv, if_pos rfl,
              dateToken_isEmpty_false hd1, dateToken_isEmpty_false hd2]
            simp
          rw [hS, tokens_sep (by decide), tokens_sep (by decide), tokens_sep (by decide),
            tokens_single (by decide) (by simp),
            tokens_single (isDateToken_elim hd1).2.2.1 (isDateToken_elim hd1).2.1,
            tokens_single (isDateToken_elim hd2).2.2.1 (isDateToken_elim hd2).2.1]
          simp [fieldTokens, hcomv, hprv, hcdv, hcrdv]
        | none =>
          have hS : serializeTodo t = ['x'] ++ ' ' :: (d1 ++ ' ' :: desc) := by
            simp only [serializeTodo, hcomv, hprv, hcdv, hcrdv, if_pos rfl,
              dateToken_isEmpty_false hd1]
            simp
          rw [hS, tokens_sep (by decide), tokens_sep (by decide),
            tokens_single (by decide) (by simp),
            tokens_single (isDateToken_elim hd1).2.2.1 (isDateToken_elim hd1).2.1]
          simp [fieldTokens, hcomv, hprv, hcdv, hcrdv]
      | none =>
        cases hcrdv : t.creationDate with
        | some d2 => exact absurd (hcc hcomv (by simp [hcrdv])) (by simp [hcdv])
        | none =>
          have hS : serializeTodo t = ['x'] ++ ' ' :: desc := by
            simp only [serializeTodo, hcomv, hprv, hcdv, hcrdv, if_pos rfl]
            simp
          rw [hS, tokens_sep (by decide), tokens_single (by decide) (by simp)]
          simp [fieldTokens, hcomv, hprv, hcdv, hcrdv]
  | false =>
    cases hcdv : t.completionDate with
    | some d1 => exact absurd (hcdcom (by simp [hcdv])) (by simp [hcomv])
    | none =>
      cases hprv : t.priority with
      | some ps =>
        obtain ⟨p0, rfl, hp0⟩ := hp ps hprv
        cases hcrdv : t.creationDate with
        | some d2 =>
          have hd2 := hcrd d2 hcrdv
          have hS : serializeTodo t = ['(', p0, ')'] ++ ' ' :: (d2 ++ ' ' :: desc) := by
            simp only [serializeTodo, hcomv, hprv, hcdv, hcrdv,
              dateToken_isEmpty_false hd2]
            simp
          rw [hS, tokens_sep (by decide), tokens_sep (by decide),
            tokens_single (prioTok_all hp0) (by simp),
            tokens_single (isDateToken_elim hd2).2.2.1 (isDateToken_elim hd2).2.1]
          simp [fieldTokens, hcomv, hprv, hcdv, hcrdv]
        | none =>
          have hS : serializeTodo t = ['(', p0, ')'] ++ ' ' :: desc := by
            simp only [serializeTodo, hcomv, hprv, hcdv, hcrdv]
            simp
          rw [hS, tokens_sep (by decide), tokens_single (prioTok_all hp0) (by simp)]
          simp [fieldTokens, hcomv, hprv, hcdv, hcrdv]
      | none =>
        cases hcrdv : t.creationDate with
        | some d2 =>
          have hd2 := hcrd d2 hcrdv
          have hS : serializeTodo t = d2 ++ ' ' :: desc := by
            simp only [serializeTodo, hcomv, hprv, hcdv, hcrdv,
              dateToken_isEmpty_false hd2]
            simp
          rw [hS, tokens_sep (by decide),
            tokens_single (isDateToken_elim hd2).2.2.1 (isDateToken_elim hd2).2.1]
          simp [fieldTokens, hcomv, hprv, hcdv, hcrdv]
        | none =>
          have hS : serializeTodo t = desc := by
            simp only [serializeTodo, hcomv, hprv, hcdv, hcrdv]
            simp
          rw [hS]
          simp [fieldTokens, hcomv, hprv, hcdv, hcrdv]

set_option maxHeartbeats 1600000 in
/-- Round trip: for a record produced by `parseTodoLine`, provided it is
not an uncompleted record carrying a completion date (the two-leading-
dates-on-an-uncompleted-line case), re-parsing the serialization agrees
on every grammar-controlled field and on the description. -/
theorem parse_roundtrip (l : List Char)
    (H : (parseTodoLine l).completed = true ∨ (parseTodoLine l).completionDate = none) :
    (parseTodoLine (serializeTodo (parseTodoLine l))).completed = (parseTodoLine l).completed ∧
    (parseTodoLine (serializeTodo (parseTodoLine l))).priority = (parseTodoLine l).priority ∧
    (parseTodoLine (serializeTodo (parseTodoLine l))).completionDate = (parseTodoLine l).completionDate ∧
    (parseTodoLine (serializeTodo (parseTodoLine l))).creationDate = (parseTodoLine l).creationDate ∧
    (parseTodoLine (serializeTodo (parseTodoLine l))).projects = (parseTodoLine l).projects ∧
    (parseTodoLine (serializeTodo (parseTodoLine l))).contexts = (parseTodoLine l).contexts ∧
    (parseTodoLine (serializeTodo (parseTodoLine l))).tags = (parseTodoLine l).tags ∧
    (parseTodoLine (serializeTodo (parseTodoLine l))).description = (parseTodoLine l).description := by
  set t := parseTodoLine l with ht
  have hr1nt : noTrailWS (remAfterPriority l) := by
    rcases remAfterPriority_facts l with ⟨-, h2⟩ | ⟨-, h2⟩
    · exact h2
    · rw [h2]
      exact remAfterX_noTrail l
  have hfacts := dateStep_facts (startsWithX (jsTrim l)) (remAfterPriority l)
  have hnt := @dateStep_noTrail (startsWithX (jsTrim l)) _ hr1nt
  have hp : ∀ ps, t.priority = some ps → ∃ p, ps = [p] ∧ isUpperAZ p = true := by
    intro ps hps
    rw [ht, parse_priority] at hps
    cases hm : matchPriority (remAfterX l) with
    | none => rw [hm] at hps; simp at hps
    | some pr =>
      rw [hm] at hps
      obtain ⟨w, hdec, hup, hw⟩ := matchPriority_some (p := pr.1) (r := pr.2) (by rw [hm])
      have h2 : some [pr.1] = some ps := hps
      exact ⟨pr.1, (Option.some.inj h2).symm, hup⟩
  have hcd : ∀ d, t.completionDate = some d → isDateToken d = true := fun d hd =>
    hfacts.1 d hd
  have hcrd : ∀ d, t.creationDate = some d → isDateToken d = true := fun d hd =>
    hfacts.2.1 d hd
  have hdt : noTrailWS t.description := hnt.1
  have hcdcom : t.completionDate ≠ none → t.completed = true := by
    intro h
    rcases H with h1 | h1
    · exact h1
    · exact absurd h1 h
  have hcc : t.completed = true → t.creationDate ≠ none → t.completionDate ≠ none :=
    fun a b => hfacts.2.2.1 a b
  have hdd : t.completionDate = none ∨ t.creationDate = none →
      matchDate t.description = none := fun h => hfacts.2.2.2.1 h
  have hbothdesc : t.completionDate = none ∧ t.creationDate = none →
      t.description = remAfterPriority l := fun h => hfacts.2.2.2.2 h
  have hdesc_ne_of_r1 : remAfterPriority l ≠ [] → t.description ≠ [] := by
    intro hr1 hd0
    by_cases hboth : t.completionDate = none ∧ t.creationDate = none
    · exact hr1 (by rw [← hbothdesc hboth]; exact hd0)
    · have hor : t.completionDate ≠ none ∨ t.creationDate ≠ none := by tauto
      exact hnt.2 hor hd0
  have hr1ne_of_com : t.completed = true → remAfterPriority l ≠ [] := by
    intro hcom
    obtain ⟨rest, -, -, -, -, hne0⟩ := @completed_decomp l hcom
    cases hm : matchPriority (remAfterX l) with
    | none =>
      unfold remAfterPriority
      rw [hm]
      exact hne0
    | some pr =>
      rcases remAfterPriority_facts l with ⟨hne1, -⟩ | ⟨hm2, -⟩
      · exact hne1
      · rw [hm] at hm2
        simp at hm2
  have hr1ne_of_pr : t.priority ≠ none → remAfterPriority l ≠ [] := by
    intro hpne
    rcases remAfterPriority_facts l with ⟨hne1, -⟩ | ⟨hm2, -⟩
    · exact hne1
    · exact absurd (by rw [ht, parse_priority, hm2]; rfl) hpne
  have hne : t.completed = true ∨ t.priority ≠ none ∨ t.completionDate ≠ none ∨
      t.creationDate ≠ none → t.description ≠ [] := by
    intro hdisj
    rcases hdisj with h | h | h | h
    · exact hdesc_ne_of_r1 (hr1ne_of_com h)
    · exact hdesc_ne_of_r1 (hr1ne_of_pr h)
    · exact hnt.2 (Or.inl h)
    · exact hnt.2 (Or.inr h)
  have hprnone_req : t.priority = none → matchPriority (remAfterX l) = none := by
    intro h
    cases hm : matchPriority (remAfterX l) with
    | none => rfl
    | some pr =>
      rw [ht, parse_priority, hm] at h
      simp at h
  have hdesc_eq_r0 : t.priority = none → t.completionDate = none →
      t.creationDate = none → t.description = remAfterX l := by
    intro h1 h2 h3
    have hd := hbothdesc ⟨h2, h3⟩
    have hr : remAfterPriority l = remAfterX l := by
      unfold remAfterPriority
      rw [hprnone_req h1]
    rw [hd, hr]
  have hdlead : t.priority = none → t.completionDate = none → t.creationDate = none →
      noLeadWS t.description := by
    intro h1 h2 h3
    rw [hdesc_eq_r0 h1 h2 h3]
    exact remAfterX_noLead l
  have hpd : t.priority = none → t.completionDate = none → t.creationDate = none →
      matchPriority t.description = none := by
    intro h1 h2 h3
    rw [hdesc_eq_r0 h1 h2 h3]
    exact hprnone_req h1
  have hxd : t.completed = false → t.priority = none → t.completionDate = none →
      t.creationDate = none → startsWithX t.description = false := by
    intro h0 h1 h2 h3
    rw [hdesc_eq_r0 h1 h2 h3]
    have hr : remAfterX l = jsTrim l := by
      unfold remAfterX
      rw [show startsWithX (jsTrim l) = false from h0]
      simp
    rw [hr]
    exact h0
  have hcanon := parse_canonical t hp hcd hcrd hdt hcdcom hcc hne hdlead hpd hdd hxd
  have htokS := serialize_tokens t hp hcd hcrd hcdcom hcc
  have htokT : tokens (jsTrim l) = fieldTokens t := tokens_trim_decomp l
  have hmark : ∀ m, isWS m = false →
      scanMarker m true (serializeTodo t) = scanMarker m true (jsTrim l) := by
    intro m hm
    rw [scanMarker_eq_capturesOf hm, scanMarker_eq_capturesOf hm, htokS, htokT]
  refine ⟨hcanon.2.1, hcanon.2.2.1, hcanon.2.2.2.1, hcanon.2.2.2.2.1, ?_, ?_, ?_,
    hcanon.2.2.2.2.2⟩
  · rw [parse_projects, hcanon.1, hmark '+' (by decide)]
    rfl
  · rw [parse_contexts, hcanon.1, hmark '@' (by decide)]
    rfl
  · rw [parse_tags, hcanon.1, scanTags_eq_tokens, htokS, ← htokT, ← scanTags_eq_tokens]
    rfl

/-! ### Claim-side comparison definitions and buffer lemmas -/

/-- Modelled from the claim's words (serialization, as stated): each
present field is emitted with a single trailing space, with the
completion date gated on `completed`, and presence read as `isSome`. -/
def serializeClaim (t : Todo) : List Char :=
  (if t.completed then ['x', ' '] else [])
  ++ (match t.priority with | some p => '(' :: p ++ [')', ' '] | none => [])
  ++ (if t.completed then
        (match t.completionDate with | some d => d ++ [' '] | none => [])
      else [])
  ++ (match t.creationDate with | some d => d ++ [' '] | none => [])
  ++ t.description

/-- The serialization shape with the JavaScript truthiness of the
optional string fields made explicit: an empty string behaves as an
absent field. -/
def serializeClaimTruthy (t : Todo) : List Char :=
  (if t.completed then ['x', ' '] else [])
  ++ (if optTruthy t.priority then '(' :: t.priority.getD [] ++ [')', ' '] else [])
  ++ (if t.completed && optTruthy t.completionDate then
        t.completionDate.getD [] ++ [' ']
      else [])
  ++ (if optTruthy t.creationDate then t.creationDate.getD [] ++ [' '] else [])
  ++ t.description

/-- Modelled from the claim's words (date check, as stated): the date
must be followed by one ASCII space. -/
def matchDateSpace : List Char → Option (List Char × List Char)
  | a :: b :: c :: d :: '-' :: e :: f :: '-' :: g :: h :: ' ' :: rest =>
      if isDigit a && isDigit b && isDigit c && isDigit d &&
         isDigit e && isDigit f && isDigit g && isDigit h then
        some ([a, b, c, d, '-', e, f, '-', g, h], rest)
      else none
  | _ => none

/-- Modelled from the claim's words (priority check, as stated): the
closing parenthesis must be followed by exactly one ASCII space. -/
def matchPrioritySpace : List Char → Option (Char × List Char)
  | '(' :: p :: ')' :: ' ' :: rest =>
      if isUpperAZ p then some (p, rest) else none
  | _ => none

/-- JavaScript record lookup `tags[key]`. -/
def lookupTag (m : List (List Char × List Char)) (k : List Char) : Option (List Char) :=
  (m.find? (fun kv => kv.1 == k)).map (fun kv => kv.2)

theorem lookupTag_map_replace (k v k2 : List Char) (m : List (List Char × List Char)) :
    lookupTag (m.map (fun kv => if kv.1 == k then (k, v) else kv)) k2 =
      if k2 = k then (if m.any (fun kv => kv.1 == k) then some v else none)
      else lookupTag m k2 := by
  induction m with
  | nil => simp [lookupTag]
  | cons a m2 ih =>
    unfold lookupTag at ih ⊢
    rw [List.map_cons]
    by_cases ha : (a.1 == k) = true
    · have hga : (if (a.1 == k) = true then (k, v) else a) = (k, v) := by
        rw [if_pos ha]
      rw [hga]
      by_cases h2 : k2 = k
      · subst h2
        rw [List.find?_cons_of_pos _ (by simp)]
        simp [List.any_cons, ha]
      · have hkk2 : ¬ ((k, v).1 == k2) = true := by
          simp only [beq_iff_eq]
          exact fun he => h2 he.symm
        have hak2 : ¬ (a.1 == k2) = true := by
          simp only [beq_iff_eq]
          intro he
          rw [beq_iff_eq] at ha
          rw [ha] at he
          exact h2 he.symm
        rw [List.find?_cons_of_neg (p := fun kv : List Char × List Char => kv.1 == k2) _ hkk2, ih, if_neg h2,
          List.find?_cons_of_neg (p := fun kv : List Char × List Char => kv.1 == k2) _ hak2,
          if_neg h2]
    · have hga : (if (a.1 == k) = true then (k, v) else a) = a := by
        rw [if_neg ha]
      rw [hga]
      by_cases hb : (a.1 == k2) = true
      · have h2 : ¬ k2 = k := by
          intro he
          subst he
          exact ha hb
        rw [List.find?_cons_of_pos (p := fun kv : List Char × List Char => kv.1 == k2) _ hb, if_neg h2,
          List.find?_cons_of_pos (p := fun kv : List Char × List Char => kv.1 == k2) _ hb]
      · rw [List.find?_cons_of_neg (p := fun kv : List Char × List Char => kv.1 == k2) _ hb, ih,
          List.find?_cons_of_neg (p := fun kv : List Char × List Char => kv.1 == k2) _ hb]
        by_cases h2 : k2 = k
        · subst h2
          have ha2 : (a.1 == k2) = false := by simpa using hb
          simp only [List.any_cons, ha2, Bool.false_or]
        · rw [if_neg h2, if_neg h2]

theorem lookupTag_append_single (m : List (List Char × List Char)) (k v k2 : List Char) :
    lookupTag (m ++ [(k, v)]) k2 =
      (lookupTag m k2).or (if k2 = k then some v else none) := by
  unfold lookupTag
  rw [List.find?_append]
  cases hf : m.find? (fun kv => kv.1 == k2) with
  | some kv => simp
  | none =>
    simp only [Option.map_none, Option.none_or]
    by_cases h2 : k2 = k
    · subst h2
      rw [List.find?_cons_of_pos _ (by simp), if_pos rfl]
      rfl
    · have hkk2 : ¬ ((k, v).1 == k2) = true := by
        simp only [beq_iff_eq]
        exact fun he => h2 he.symm
      rw [List.find?_cons_of_neg (p := fun kv : List Char × List Char => kv.1 == k2) _ hkk2, if_neg h2]
      rfl

theorem any_eq_false_of_find_none {m : List (List Char × List Char)} {k : List Char}
    (h : m.find? (fun kv => kv.1 == k) = none) :
    m.any (fun kv => kv.1 == k) = false := by
  induction m with
  | nil => rfl
  | cons a m2 ih =>
    by_cases ha : (a.1 == k) = true
    · rw [List.find?_cons_of_pos (p := fun kv : List Char × List Char => kv.1 == k) _ ha] at h
      simp at h
    · rw [List.find?_cons_of_neg (p := fun kv : List Char × List Char => kv.1 == k) _ ha] at h
      have ha2 : (a.1 == k) = false := by simpa using ha
      simp only [List.any_cons, ha2, Bool.false_or]
      exact ih h

theorem lookupTag_upsert (m : List (List Char × List Char)) (k v k2 : List Char) :
    lookupTag (upsert m k v) k2 = if k2 = k then some v else lookupTag m k2 := by
  unfold upsert
  by_cases hany : m.any (fun kv => kv.1 == k) = true
  · rw [if_pos hany, lookupTag_map_replace]
    by_cases h2 : k2 = k
    · simp [h2, hany]
    · simp [h2]
  · have hany2 : m.any (fun kv => kv.1 == k) = false := Bool.eq_false_iff.mpr hany
    rw [if_neg (by rw [hany2]; simp), lookupTag_append_single]
    by_cases h2 : k2 = k
    · subst h2
      have hf : m.find? (fun kv => kv.1 == k2) = none := by
        cases hf : m.find? (fun kv => kv.1 == k2) with
        | none => rfl
        | some kv =>
          have hp := List.find?_some hf
          have hmem := List.mem_of_find?_eq_some hf
          have : m.any (fun x => x.1 == k2) = true :=
            List.any_eq_true.mpr ⟨kv, hmem, hp⟩
          rw [this] at hany2
          simp at hany2
      simp [lookupTag, hf]
    · simp [h2]

theorem parseTodoTxt_eq_filter (text : List Char) :
    parseTodoTxt text =
      ((splitNL text).filter (fun l => !(jsTrim l).isEmpty)).map parseTodoLine := by
  unfold parseTodoTxt
  induction splitNL text with
  | nil => rfl
  | cons a ls ih =>
    by_cases ha : (jsTrim a).isEmpty = true
    · simp only [List.filterMap_cons, List.filter_cons, ha, Bool.not_true,
        eq_self_iff_true, if_true, Bool.false_eq_true, if_false]
      exact ih
    · have ha2 : (jsTrim a).isEmpty = false := by simpa using ha
      simp only [List.filterMap_cons, List.filter_cons, ha2, Bool.not_false,
        eq_self_iff_true, if_true, Bool.false_eq_true, if_false, List.map_cons]
      rw [ih]

/-! ### Claim theorems -/

/-- Claim C1, counterexample: on the line
`2024-01-01 2024-02-02 2024-03-03 rest` the parse is uncompleted yet
carries a completion date, which serialization drops, so the re-parse
disagrees on `completionDate` (and on the description). -/
theorem claim1_counterexample :
    (parseTodoLine (serializeTodo
        (parseTodoLine ("2024-01-01 2024-02-02 2024-03-03 rest".data)))).completionDate ≠
      (parseTodoLine ("2024-01-01 2024-02-02 2024-03-03 rest".data)).completionDate ∧
    (parseTodoLine (serializeTodo
        (parseTodoLine ("2024-01-01 2024-02-02 2024-03-03 rest".data)))).description ≠
      (parseTodoLine ("2024-01-01 2024-02-02 2024-03-03 rest".data)).description := by
  constructor
  · have h1 : (parseTodoLine (serializeTodo
        (parseTodoLine ("2024-01-01 2024-02-02 2024-03-03 rest".data)))).completionDate =
        some ("2024-02-02".data) := rfl
    have h2 : (parseTodoLine ("2024-01-01 2024-02-02 2024-03-03 rest".data)).completionDate =
        some ("2024-01-01".data) := rfl
    rw [h1, h2]
    decide
  · have h1 : (parseTodoLine (serializeTodo
        (parseTodoLine ("2024-01-01 2024-02-02 2024-03-03 rest".data)))).description =
        "rest".data := rfl
    have h2 : (parseTodoLine ("2024-01-01 2024-02-02 2024-03-03 rest".data)).description =
        "2024-03-03 rest".data := rfl
    rw [h1, h2]
    decide

/-- Claim C1 (amended): for every line whose parse is completed or
carries no completion date, re-parsing the serialization agrees with the
original parse on completed, priority, completionDate, creationDate,
projects, contexts and tags, and preserves the description verbatim.
(The excluded case — an uncompleted parse with a completion date, which
only arises from two leading dates on an uncompleted line — is exactly
what the counterexample falsifies.) -/
theorem claim1_roundtrip (l : List Char)
    (H : (parseTodoLine l).completed = true ∨ (parseTodoLine l).completionDate = none) :
    (parseTodoLine (serializeTodo (parseTodoLine l))).completed = (parseTodoLine l).completed ∧
    (parseTodoLine (serializeTodo (parseTodoLine l))).priority = (parseTodoLine l).priority ∧
    (parseTodoLine (serializeTodo (parseTodoLine l))).completionDate = (parseTodoLine l).completionDate ∧
    (parseTodoLine (serializeTodo (parseTodoLine l))).creationDate = (parseTodoLine l).creationDate ∧
    (parseTodoLine (serializeTodo (parseTodoLine l))).projects = (parseTodoLine l).projects ∧
    (parseTodoLine (serializeTodo (parseTodoLine l))).contexts = (parseTodoLine l).contexts ∧
    (parseTodoLine (serializeTodo (parseTodoLine l))).tags = (parseTodoLine l).tags ∧
    (parseTodoLine (serializeTodo (parseTodoLine l))).description = (parseTodoLine l).description :=
  parse_roundtrip l H

/-- Claim C1, witness: the round trip at the concrete completed line
`x (A) 2024-13-99 Task +p @c k:v`. -/
theorem claim1_roundtrip_witness :
    (parseTodoLine (serializeTodo (parseTodoLine ("x (A) 2024-13-99 Task +p @c k:v".data)))).completed
        = (parseTodoLine ("x (A) 2024-13-99 Task +p @c k:v".data)).completed ∧
    (parseTodoLine (serializeTodo (parseTodoLine ("x (A) 2024-13-99 Task +p @c k:v".data)))).priority
        = (parseTodoLine ("x (A) 2024-13-99 Task +p @c k:v".data)).priority ∧
    (parseTodoLine (serializeTodo (parseTodoLine ("x (A) 2024-13-99 Task +p @c k:v".data)))).completionDate
        = (parseTodoLine ("x (A) 2024-13-99 Task +p @c k:v".data)).completionDate ∧
    (parseTodoLine (serializeTodo (parseTodoLine ("x (A) 2024-13-99 Task +p @c k:v".data)))).creationDate
        = (parseTodoLine ("x (A) 2024-13-99 Task +p @c k:v".data)).creationDate ∧
    (parseTodoLine (serializeTodo (parseTodoLine ("x (A) 2024-13-99 Task +p @c k:v".data)))).projects
        = (parseTodoLine ("x (A) 2024-13-99 Task +p @c k:v".data)).projects ∧
    (parseTodoLine (serializeTodo (parseTodoLine ("x (A) 2024-13-99 Task +p @c k:v".data)))).contexts
        = (parseTodoLine ("x (A) 2024-13-99 Task +p @c k:v".data)).contexts ∧
    (parseTodoLine (serializeTodo (parseTodoLine ("x (A) 2024-13-99 Task +p @c k:v".data)))).tags
        = (parseTodoLine ("x (A) 2024-13-99 Task +p @c k:v".data)).tags ∧
    (parseTodoLine (serializeTodo (parseTodoLine ("x (A) 2024-13-99 Task +p @c k:v".data)))).description
        = (parseTodoLine ("x (A) 2024-13-99 Task +p @c k:v".data)).description :=
  claim1_roundtrip ("x (A) 2024-13-99 Task +p @c k:v".data) (Or.inl rfl)

/-- Claim C2, counterexample: a record with `priority` set to the empty
string is "set", yet `serializeTodo` emits nothing for it (JavaScript
truthiness), while the claim's literal reading emits `() `. -/
theorem claim2_counterexample :
    serializeTodo
        { completed := false, priority := some [], completionDate := none,
          creationDate := none, description := "a".data, projects := [], contexts := [],
          tags := [], raw := [] } ≠
      serializeClaim
        { completed := false, priority := some [], completionDate := none,
          creationDate := none, description := "a".data, projects := [], contexts := [],
          tags := [], raw := [] } := by
  decide

/-- Claim C2 (amended): `serializeTodo` emits exactly, in this order,
`x ` when completed; `(P) ` when the priority is set to a nonempty
string; the completion date and a space only when completed and the
completion date is set nonempty; the creation date and a space whenever
it is set nonempty, independent of completion; then the description
verbatim and nothing else. -/
theorem claim2_serialize (t : Todo) : serializeTodo t = serializeClaimTruthy t := by
  obtain ⟨com, pr, cd, crd, desc, prj, ctx, tg, raw⟩ := t
  unfold serializeTodo serializeClaimTruthy optTruthy
  rcases pr with _ | p <;> rcases cd with _ | d1 <;> rcases crd with _ | d2 <;>
    cases com <;> simp_all [Option.getD] <;> split_ifs <;> simp_all

/-- Claim C3, counterexample: in `2024-01-01\tT` the date is followed by
a tab, not a space; the claim's space-only matcher finds no date (so
both dates should stay unset), yet the code records a creation date. -/
theorem claim3_counterexample :
    matchDateSpace (jsTrim ("2024-01-01\tT".data)) = none ∧
    (parseTodoLine ("2024-01-01\tT".data)).creationDate = some ("2024-01-01".data) ∧
    (parseTodoLine ("2024-01-01\tT".data)).completionDate = none :=
  ⟨rfl, rfl, rfl⟩

/-- Claim C3 (amended): a date token matches at the current position
exactly when the text there is 4 digits, `-`, 2 digits, `-`, 2 digits
followed by one whitespace character (the regex `\s`, not only a space),
with no calendar validation; two consecutive matches set
completionDate/creationDate in that order regardless of the completed
flag; a single match sets completionDate when completed and creationDate
otherwise; no match leaves both unset. -/
theorem claim3_dates :
    (∀ s d r, matchDate s = some (d, r) ↔
      ∃ w, s = d ++ w :: r ∧ isDateToken d = true ∧ isWS w = true) ∧
    (∀ l, (matchDate (remAfterPriority l) = none →
        (parseTodoLine l).completionDate = none ∧ (parseTodoLine l).creationDate = none) ∧
      (∀ d1 r2 d2 r3, matchDate (remAfterPriority l) = some (d1, r2) →
        matchDate r2 = some (d2, r3) →
        (parseTodoLine l).completionDate = some d1 ∧
        (parseTodoLine l).creationDate = some d2) ∧
      (∀ d1 r2, matchDate (remAfterPriority l) = some (d1, r2) → matchDate r2 = none →
        ((parseTodoLine l).completed = true →
          (parseTodoLine l).completionDate = some d1 ∧ (parseTodoLine l).creationDate = none) ∧
        ((parseTodoLine l).completed = false →
          (parseTodoLine l).completionDate = none ∧
          (parseTodoLine l).creationDate = some d1))) ∧
    isDateToken ("2024-13-99".data) = true ∧
    (parseTodoLine ("2024-13-99 ok".data)).creationDate = some ("2024-13-99".data) := by
  refine ⟨?_, ?_, by decide, rfl⟩
  · intro s d r
    constructor
    · exact matchDate_some
    · rintro ⟨w, rfl, hd, hw⟩
      exact matchDate_build hd hw
  · intro l
    refine ⟨?_, ?_, ?_⟩
    · intro h
      rw [parse_completionDate, parse_creationDate]
      simp [dateStep, h]
    · intro d1 r2 d2 r3 h1 h2
      rw [parse_completionDate, parse_creationDate]
      simp [dateStep, h1, h2]
    · intro d1 r2 h1 h2
      constructor
      · intro hc
        rw [parse_completed] at hc
        rw [parse_completionDate, parse_creationDate, hc]
        simp [dateStep, h1, h2]
      · intro hc
        rw [parse_completed] at hc
        rw [parse_completionDate, parse_creationDate, hc]
        simp [dateStep, h1, h2]

/-- Claim C3, witness: both directions at concrete inputs — building a
date match and reading off the one-date completed assignment. -/
theorem claim3_witness :
    matchDate ("2024-01-02 rest".data) = some ("2024-01-02".data, "rest".data) ∧
    (parseTodoLine ("x 2024-01-02 done".data)).completionDate = some ("2024-01-02".data) := by
  constructor
  · exact (claim3_dates.1 ("2024-01-02 rest".data) ("2024-01-02".data) ("rest".data)).mpr
      ⟨' ', rfl, by decide, by decide⟩
  · exact (((claim3_dates.2.1 ("x 2024-01-02 done".data)).2.2
      ("2024-01-02".data) ("done".data) rfl rfl).1 rfl).1

/-- Claim C4, counterexample: in `(A)\tTask` the closing parenthesis is
followed by a tab, not a single ASCII space — the claim says priority
must stay unset, yet the code records priority `A` (the regex accepts
any `\s`). -/
theorem claim4_counterexample :
    (parseTodoLine ("(A)\tTask".data)).priority = some ['A'] ∧
    matchPrioritySpace (jsTrim ("(A)\tTask".data)) = none :=
  ⟨rfl, rfl⟩

/-- Claim C4 (amended): priority is recorded exactly when the remaining
text after the optional completion prefix starts with `(`, one uppercase
ASCII letter, `)`, and one whitespace character (the regex `\s`, not
only a space); any other shape leaves the priority unset and the text
unconsumed. -/
theorem claim4_priority :
    (∀ s p r, matchPriority s = some (p, r) ↔
      ∃ w, s = '(' :: p :: ')' :: w :: r ∧ isUpperAZ p = true ∧ isWS w = true) ∧
    (∀ l, (parseTodoLine l).priority =
        (matchPriority (remAfterX l)).map (fun x => [x.1]) ∧
      (matchPriority (remAfterX l) = none → remAfterPriority l = remAfterX l)) := by
  constructor
  · intro s p r
    constructor
    · exact matchPriority_some
    · rintro ⟨w, rfl, hp, hw⟩
      exact matchPriority_build hp hw
  · intro l
    refine ⟨parse_priority l, ?_⟩
    intro h
    unfold remAfterPriority
    rw [h]

/-- Claim C4, witness: a priority match built at a concrete input, and
the parse of a concrete line read through the theorem. -/
theorem claim4_witness :
    matchPriority ("(A) x".data) = some ('A', "x".data) ∧
    (parseTodoLine ("(B) y".data)).priority = some ['B'] := by
  constructor
  · exact (claim4_priority.1 ("(A) x".data) 'A' ("x".data)).mpr ⟨' ', rfl, by decide, by decide⟩
  · rw [(claim4_priority.2 ("(B) y".data)).1]
    rfl

/-- Claim C5, counterexample: on `x  Task` (two spaces) the claim
predicts description ` Task` with the leading space intact, but the code
re-trims after consuming `x `, so the description is `Task`. -/
theorem claim5_counterexample :
    (parseTodoLine ("x  Task".data)).description ≠ ' ' :: "Task".data ∧
    (parseTodoLine ("x  Task".data)).description = "Task".data := by
  constructor
  · have h : (parseTodoLine ("x  Task".data)).description = "Task".data := rfl
    rw [h]
    decide
  · rfl

/-- Claim C5 (amended): the description is the text remaining after
consuming the optional `x ` prefix — after which the remainder is
trimmed again, so leading whitespace there is removed — and then the
optional priority and date prefixes; in particular `x  Task` gives
description `Task`. -/
theorem claim5_description :
    (∀ l, remAfterX l =
        (if startsWithX (jsTrim l) = true then jsTrim ((jsTrim l).drop 2) else jsTrim l) ∧
      (parseTodoLine l).description =
        (dateStep (startsWithX (jsTrim l)) (remAfterPriority l)).2.2 ∧
      (matchPriority (remAfterX l) = none ∧ matchDate (remAfterX l) = none →
        (parseTodoLine l).description = remAfterX l)) ∧
    (parseTodoLine ("x  Task".data)).description = "Task".data := by
  refine ⟨?_, rfl⟩
  intro l
  refine ⟨rfl, parse_description l, ?_⟩
  rintro ⟨h1, h2⟩
  have hrp : remAfterPriority l = remAfterX l := by
    unfold remAfterPriority
    rw [h1]
  rw [parse_description, hrp]
  simp [dateStep, h2]

/-- Claim C5, witness: the untouched-remainder clause at a concrete
line with neither priority nor date prefix. -/
theorem claim5_witness :
    (parseTodoLine ("hello world".data)).description = remAfterX ("hello world".data) :=
  (claim5_description.1 ("hello world".data)).2.2 ⟨rfl, rfl⟩

/-- Claim C6: projects (and contexts with `@`) collect, in left-to-right
order with duplicates kept, the greedy non-whitespace run after every
marker that starts a maximal non-whitespace token of the whole trimmed
line — i.e. is at position 0 or preceded by whitespace — independently
of prefix consumption; `++double` yields `+double`, `Task+inline`
yields nothing, `email@example.com` is no context, and duplicates
are retained in order. -/
theorem claim6_projects_contexts :
    (∀ l, (parseTodoLine l).projects = capturesOf '+' (tokens (jsTrim l)) ∧
      (parseTodoLine l).contexts = capturesOf '@' (tokens (jsTrim l))) ∧
    (parseTodoLine ("++double".data)).projects = ["+double".data] ∧
    (parseTodoLine ("Task+inline".data)).projects = [] ∧
    (parseTodoLine ("email@example.com".data)).contexts = [] ∧
    (parseTodoLine ("x (A) +a b +a".data)).projects = ["a".data, "a".data] := by
  refine ⟨?_, ?_, ?_, ?_, ?_⟩
  · intro l
    constructor
    · rw [parse_projects, scanMarker_eq_capturesOf (by decide)]
    · rw [parse_contexts, scanMarker_eq_capturesOf (by decide)]
  · rw [parse_projects, scanMarker_eq_capturesOf (by decide)]
    have h1 : jsTrim ("++double".data) = "++double".data := by decide
    rw [h1, tokens_single (A := "++double".data) (by decide) (by decide)]
    decide
  · rw [parse_projects, scanMarker_eq_capturesOf (by decide)]
    have h1 : jsTrim ("Task+inline".data) = "Task+inline".data := by decide
    rw [h1, tokens_single (A := "Task+inline".data) (by decide) (by decide)]
    decide
  · rw [parse_contexts, scanMarker_eq_capturesOf (by decide)]
    have h1 : jsTrim ("email@example.com".data) = "email@example.com".data := by decide
    rw [h1, tokens_single (A := "email@example.com".data) (by decide) (by decide)]
    decide
  · rw [parse_projects, scanMarker_eq_capturesOf (by decide)]
    have h1 : jsTrim ("x (A) +a b +a".data) =
        ("x".data) ++ ' ' :: (("(A)".data) ++ ' ' ::
          (("+a".data) ++ ' ' :: (("b".data) ++ ' ' :: ("+a".data)))) := by decide
    rw [h1, tokens_sep (w := ' ') (by decide), tokens_sep (w := ' ') (by decide),
      tokens_sep (w := ' ') (by decide), tokens_sep (w := ' ') (by decide),
      tokens_single (A := "x".data) (by decide) (by decide),
      tokens_single (A := "(A)".data) (by decide) (by decide),
      tokens_single (A := "+a".data) (by decide) (by decide),
      tokens_single (A := "b".data) (by decide) (by decide)]
    decide

/-- Claim C7: tags map each maximal non-whitespace token of the trimmed
line that contains a `:` after a nonempty lazy key with a nonempty
greedy value — the split is at the first such colon, so the value keeps
later colons — skipping tokens that begin with `+` or `@`; a bare
`key:` or `:value` yields nothing, and on duplicate keys the later
(rightmost) insertion wins. -/
theorem claim7_tags :
    (∀ l, (parseTodoLine l).tags = buildTags ((tokens (jsTrim l)).filterMap tokenTag)) ∧
    (∀ m k v k2, lookupTag (upsert m k v) k2 = if k2 = k then some v else lookupTag m k2) ∧
    (parseTodoLine ("Task key:val:ue".data)).tags = [("key".data, "val:ue".data)] ∧
    (parseTodoLine ("key:".data)).tags = [] ∧
    (parseTodoLine (":value".data)).tags = [] ∧
    lookupTag (parseTodoLine ("a k:1 k:2".data)).tags ("k".data) = some ("2".data) := by
  refine ⟨?_, lookupTag_upsert, ?_, ?_, ?_, ?_⟩
  · intro l
    rw [parse_tags, scanTags_eq_tokens]
  · rw [parse_tags, scanTags_eq_tokens]
    have h1 : jsTrim ("Task key:val:ue".data) =
        ("Task".data) ++ ' ' :: ("key:val:ue".data) := by decide
    rw [h1, tokens_sep (w := ' ') (by decide),
      tokens_single (A := "Task".data) (by decide) (by decide),
      tokens_single (A := "key:val:ue".data) (by decide) (by decide)]
    decide
  · rw [parse_tags, scanTags_eq_tokens]
    have h1 : jsTrim ("key:".data) = "key:".data := by decide
    rw [h1, tokens_single (A := "key:".data) (by decide) (by decide)]
    decide
  · rw [parse_tags, scanTags_eq_tokens]
    have h1 : jsTrim (":value".data) = ":value".data := by decide
    rw [h1, tokens_single (A := ":value".data) (by decide) (by decide)]
    decide
  · rw [parse_tags, scanTags_eq_tokens]
    have h1 : jsTrim ("a k:1 k:2".data) =
        ("a".data) ++ ' ' :: (("k:1".data) ++ ' ' :: ("k:2".data)) := by decide
    rw [h1, tokens_sep (w := ' ') (by decide), tokens_sep (w := ' ') (by decide),
      tokens_single (A := "a".data) (by decide) (by decide),
      tokens_single (A := "k:1".data) (by decide) (by decide),
      tokens_single (A := "k:2".data) (by decide) (by decide)]
    decide

/-- Claim C8: `updateTaskAtLine` returns empty on empty text for any
index; on nonempty text an out-of-range index (negative included)
returns the text unchanged; `deleteTaskAtLine` behaves the same on empty
text and out-of-range indices, and deleting the only record returns the
empty string. -/
theorem claim8_bounds :
    (∀ (i : Int) (u : Todo), updateTaskAtLine [] i u = []) ∧
    (∀ (text : List Char) (i : Int) (u : Todo), text ≠ [] →
      (i < 0 ∨ ((parseTodoTxt text).length : Int) ≤ i) → updateTaskAtLine text i u = text) ∧
    (∀ i : Int, deleteTaskAtLine [] i = []) ∧
    (∀ (text : List Char) (i : Int), text ≠ [] →
      (i < 0 ∨ ((parseTodoTxt text).length : Int) ≤ i) → deleteTaskAtLine text i = text) ∧
    (∀ (text : List Char) (i : Int), text ≠ [] → (parseTodoTxt text).length = 1 →
      0 ≤ i → i < 1 → deleteTaskAtLine text i = []) := by
  refine ⟨?_, ?_, ?_, ?_, ?_⟩
  · intro i u
    rfl
  · intro text i u htext hrange
    unfold updateTaskAtLine
    rw [if_neg (by simp [List.isEmpty_iff, htext]), if_pos hrange]
  · intro i
    rfl
  · intro text i htext hrange
    unfold deleteTaskAtLine
    rw [if_neg (by simp [List.isEmpty_iff, htext]), if_pos hrange]
  · intro text i htext hlen h0 h1
    unfold deleteTaskAtLine
    rw [if_neg (by simp [List.isEmpty_iff, htext]), if_neg (by omega)]
    obtain ⟨t0, ht0⟩ := List.length_eq_one.mp hlen
    have hi : i.toNat = 0 := by omega
    rw [ht0, hi]
    rfl

/-- Claim C8, witness: the edge behaviors at concrete inputs. -/
theorem claim8_witness :
    updateTaskAtLine ("a".data) 5
      { completed := false, priority := none, completionDate := none, creationDate := none,
        description := "Z".data, projects := [], contexts := [], tags := [], raw := [] }
      = "a".data ∧
    deleteTaskAtLine ("a".data) (-1) = "a".data ∧
    deleteTaskAtLine ("a".data) 0 = [] := by
  refine ⟨?_, ?_, ?_⟩
  · exact claim8_bounds.2.1 ("a".data) 5 _ (by decide) (by decide)
  · exact claim8_bounds.2.2.2.1 ("a".data) (-1) (by decide) (by decide)
  · exact claim8_bounds.2.2.2.2 ("a".data) 0 (by decide) (by decide) (by decide) (by decide)

/-- Claim C9: every public operation is a total function of this
embedding — for every input it returns a well-defined record or text
(and the parser keeps the raw line) — since none of the operations has
a failure path. -/
theorem claim9_totality :
    ∀ (line text : List Char) (i : Int) (u : Todo) (todos : List Todo),
      (parseTodoLine line).raw = line ∧
      (∃ r, parseTodoLine line = r) ∧
      (∃ r, parseTodoTxt text = r) ∧
      (∃ r, serializeTodo u = r) ∧
      (∃ r, appendTaskToFile text u = r) ∧
      (∃ r, updateTodoInList todos i u = r) ∧
      (∃ r, updateTaskAtLine text i u = r) ∧
      (∃ r, deleteTaskAtLine text i = r) :=
  fun line text i u todos =>
    ⟨rfl, ⟨_, rfl⟩, ⟨_, rfl⟩, ⟨_, rfl⟩, ⟨_, rfl⟩, ⟨_, rfl⟩, ⟨_, rfl⟩, ⟨_, rfl⟩⟩

/-- Claim C10: an in-range update or delete re-renders the whole buffer:
every kept record is re-serialized from its parse (blank lines were
dropped by the buffer parse, and non-canonical spacing is rewritten), as
witnessed both in general and on a concrete buffer whose blank line
disappears and whose `x  B` line is rewritten to `x B`. -/
theorem claim10_frame :
    (∀ (content : List Char) (i : Int) (u : Todo),
      content ≠ [] → 0 ≤ i → i.toNat < (parseTodoTxt content).length →
      deleteTaskAtLine content i =
        joinNL (((parseTodoTxt content).eraseIdx i.toNat).map serializeTodo) ∧
      updateTaskAtLine content i u =
        joinNL (((parseTodoTxt content).set i.toNat u).map serializeTodo)) ∧
    (∀ text, parseTodoTxt text =
      ((splitNL text).filter (fun l => !(jsTrim l).isEmpty)).map parseTodoLine) ∧
    deleteTaskAtLine ("a\n\nx  B\nc".data) 0 = "x B\nc".data := by
  refine ⟨?_, parseTodoTxt_eq_filter, by decide⟩
  intro content i u hc h0 hlen
  constructor
  · unfold deleteTaskAtLine
    rw [if_neg (by simp [List.isEmpty_iff, hc]), if_neg (by omega)]
    by_cases he : ((parseTodoTxt content).eraseIdx i.toNat).isEmpty
    · rw [if_pos he]
      have h2 : (parseTodoTxt content).eraseIdx i.toNat = [] := by
        simpa [List.isEmpty_iff] using he
      rw [h2]
      rfl
    · rw [if_neg he]
  · unfold updateTaskAtLine updateTodoInList
    rw [if_neg (by simp [List.isEmpty_iff, hc]), if_neg (by omega),
      if_neg (by simp [List.isEmpty_iff]; intro h2; rw [h2] at hlen; simp at hlen),
      if_neg (by omega)]

/-- Claim C10, witness: the in-range re-render equations at a concrete
two-line buffer and index 0. -/
theorem claim10_witness :
    deleteTaskAtLine ("a\nb".data) 0 =
      joinNL (((parseTodoTxt ("a\nb".data)).eraseIdx (0 : Int).toNat).map serializeTodo) ∧
    updateTaskAtLine ("a\nb".data) 0
      { completed := false, priority := none, completionDate := none, creationDate := none,
        description := "Z".data, projects := [], contexts := [], tags := [], raw := [] } =
      joinNL (((parseTodoTxt ("a\nb".data)).set (0 : Int).toNat
        { completed := false, priority := none, completionDate := none, creationDate := none,
          description := "Z".data, projects := [], contexts := [], tags := [],
          raw := [] }).map serializeTodo) :=
  claim10_frame.1 ("a\nb".data) 0 _ (by decide) (by decide) (by decide)

end TodoTxt
